import Mathlib

/-!
Verification of the pokervision response-normalization pipeline.

This file gives a shallow embedding of the JavaScript source
(`functions/api/analyze.js`, `server.mjs`) and proves / refutes the frozen
claims about it.  JavaScript values are modelled by the inductive `JVal`
(numbers are `Option ℚ`, `none` standing for NaN; JS strings are `List Char`).
Thrown exceptions are modelled with `Except Unit` (resp. `Except JsErr` where
the error object's message matters).
-/

namespace PokerVision

/-- JS strings are modelled as lists of characters. -/
abbrev Str := List Char

/-- A JavaScript value.  `num none` is NaN (still of JS type "number"). -/
inductive JVal where
  | undefined
  | null
  | bool (b : Bool)
  | num (v : Option ℚ)
  | str (s : Str)
  | arr (xs : List JVal)
  | obj (fields : List (Str × JVal))

/-- JS truthiness (`Boolean(v)`): `undefined`, `null`, `false`, `0`, NaN and the
empty string are falsy; every object and array is truthy. -/
def jsTruthy : JVal → Bool
  | .undefined => false
  | .null => false
  | .bool b => b
  | .num none => false
  | .num (some q) => decide (q ≠ 0)
  | .str s => !s.isEmpty
  | .arr _ => true
  | .obj _ => true

/-- `v != null` (loose inequality): false exactly on `null` and `undefined`. -/
def jsNonNullish : JVal → Bool
  | .undefined => false
  | .null => false
  | _ => true

/-- Association-list lookup on object fields (first match). -/
def lookupF : List (Str × JVal) → Str → Option JVal
  | [], _ => none
  | (k, v) :: fs, k' => if k = k' then some v else lookupF fs k'

/-- Property read on a value already known to be non-nullish: objects look the
key up, every other value yields `undefined`.  (Built-in properties such as
`length` on strings/arrays are never read by the embedded code, so they are
not modelled.) -/
def getFieldD : JVal → Str → JVal
  | .obj fs, k => (lookupF fs k).getD .undefined
  | _, _ => .undefined

/-- Plain property access `v.k`: throws (TypeError) when `v` is nullish. -/
def getField : JVal → Str → Except Unit JVal
  | .undefined, _ => .error ()
  | .null, _ => .error ()
  | v, k => .ok (getFieldD v k)

/-- Optional-chaining access `v?.k`: `undefined` when `v` is nullish. -/
def getOptF (v : JVal) (k : Str) : JVal :=
  match v with
  | .undefined => .undefined
  | .null => .undefined
  | _ => getFieldD v k

/-- Chained optional access `v?.k₁?.k₂?...`. -/
def getOptPath (v : JVal) : List Str → JVal
  | [] => v
  | k :: ks => getOptPath (getOptF v k) ks

/-- Chained plain access `v.k₁.k₂...` (throws on a nullish link). -/
def getPathE (v : JVal) : List Str → Except Unit JVal
  | [] => .ok v
  | k :: ks =>
    match getField v k with
    | .error e => .error e
    | .ok t => getPathE t ks

/-- Update-or-append of a key in an object's field list, keeping the original
position of an existing key (JS property-assignment order semantics). -/
def setFields : List (Str × JVal) → Str → JVal → List (Str × JVal)
  | [], k, v => [(k, v)]
  | (k', v') :: fs, k, v =>
    if k' = k then (k, v) :: fs else (k', v') :: setFields fs k v

/-- Property assignment `v.k = x` (modules run in strict mode): objects are
updated, assignment on a nullish value or a primitive throws a TypeError.
A named property set on a JS array would create an expando property that
`JSON.stringify` drops and that nothing in this pipeline reads, so it is
modelled as leaving the array unchanged (observationally equivalent). -/
def setField (v : JVal) (k : Str) (x : JVal) : Except Unit JVal :=
  match v with
  | .obj fs => .ok (.obj (setFields fs k x))
  | .arr xs => .ok (.arr xs)
  | _ => .error ()

/-- Nested assignment `v.k₁.k₂...kₙ = x`: the links before the last are read
with plain access, the final link is a property assignment; the functional
result rebuilds the (unaliased) spine, matching in-place mutation of a
JSON-derived tree. -/
def setPath (v : JVal) : List Str → JVal → Except Unit JVal
  | [], x => .ok x
  | [k], x => setField v k x
  | k :: k' :: ks, x =>
    match getField v k with
    | .error e => .error e
    | .ok t =>
      match setPath t (k' :: ks) x with
      | .error e => .error e
      | .ok t' => setField v k t'

/-- Object-spread `{...v}` as a field list: objects contribute their fields,
arrays and strings contribute index-keyed entries, primitives and nullish
values contribute nothing. -/
def idxKey (n : Nat) : Str := (Nat.toDigits 10 n)

def spreadFields (v : JVal) : List (Str × JVal) :=
  match v with
  | .obj fs => fs
  | .arr xs => (List.range xs.length).zip xs |>.map (fun p => (idxKey p.1, p.2))
  | .str s => (List.range s.length).zip s |>.map (fun p => (idxKey p.1, .str [p.2]))
  | _ => []

/-! ### String helpers (JS `trim`, `indexOf`, `lastIndexOf`, `slice`) -/

/-- JS whitespace for `String.prototype.trim` (the characters occurring in
practice; the exotic Unicode space code points are never produced by the
embedded strings and are omitted). -/
def isJsWs (c : Char) : Bool :=
  c = ' ' || c = '\t' || c = '\n' || c = '\r' || c = '\x0b' || c = '\x0c'

/-- `s.trim()`. -/
def trimStr (cs : Str) : Str :=
  ((cs.dropWhile isJsWs).reverse.dropWhile isJsWs).reverse

/-- `s.indexOf(c)` as an `Option Nat` (`none` for `-1`). -/
def idxOfC (c : Char) : Str → Option Nat
  | [] => none
  | x :: xs => if x = c then some 0 else (idxOfC c xs).map (· + 1)

/-- `s.lastIndexOf(c)` as an `Option Nat`. -/
def lastIdxOfC (c : Char) (cs : Str) : Option Nat :=
  (idxOfC c cs.reverse).map (fun i => cs.length - 1 - i)

/-- `s.slice(a, b)` (for `0 ≤ a ≤ b`). -/
def sliceStr (cs : Str) (a b : Nat) : Str := (cs.drop a).take (b - a)

/-! ### Digits and number parsing -/

def digVal (c : Char) : Option Nat :=
  if '0' ≤ c ∧ c ≤ '9' then some (c.toNat - '0'.toNat) else none

def isDigitC (c : Char) : Bool := decide ('0' ≤ c ∧ c ≤ '9')

def natOfDigits (ds : Str) : Nat :=
  ds.foldl (fun a c => a * 10 + (c.toNat - '0'.toNat)) 0

/-- Split a leading run of decimal digits. -/
def spanDigits (cs : Str) : Str × Str := (cs.takeWhile isDigitC, cs.dropWhile isDigitC)

/-- Value of `int.frac e exp` as a rational.  (The fraction-free,
exponent-free form is produced directly as a cast; the general form is
arithmetically identical.) -/
def ratOfParts (neg : Bool) (intDs fracDs : Str) (expNeg : Bool) (expDs : Str) : ℚ :=
  if fracDs.isEmpty ∧ expDs.isEmpty then
    if neg then -(natOfDigits intDs : ℚ) else (natOfDigits intDs : ℚ)
  else
    let mant : ℚ := (natOfDigits intDs : ℚ) + (natOfDigits fracDs : ℚ) / (10 ^ fracDs.length : ℚ)
    let scaled : ℚ :=
      if expNeg then mant / (10 ^ natOfDigits expDs : ℚ) else mant * (10 ^ natOfDigits expDs : ℚ)
    if neg then -scaled else scaled

/-- Parse the optional `[eE][+-]?digits` tail; fails on a malformed exponent. -/
def parseExpTail (cs : Str) : Option ((Bool × Str) × Str) :=
  match cs with
  | 'e' :: rest | 'E' :: rest =>
    let (sgn, rest') :=
      match rest with
      | '-' :: r => (true, r)
      | '+' :: r => (false, r)
      | r => (false, r)
    let (ds, rest'') := spanDigits rest'
    if ds.isEmpty then none else some ((sgn, ds), rest'')
  | rest => some ((false, []), rest)

/-- Parse a JSON number (`-?digits(.digits)?([eE][+-]?digits)?`, no leading
zeros) off the front of the input, returning the value and the rest. -/
def parseJsonNumber (cs : Str) : Option (ℚ × Str) := do
  let (neg, cs₁) := match cs with | '-' :: r => (true, r) | r => (false, r)
  let (intDs, cs₂) := spanDigits cs₁
  if intDs.isEmpty then none else
  if intDs.length > 1 ∧ intDs.head? = some '0' then none else do
  let (fracDs, cs₃) :=
    match cs₂ with
    | '.' :: r => spanDigits r
    | _ => ([], cs₂)
  if cs₂.head? = some '.' ∧ fracDs.isEmpty then none else do
  let ((expNeg, expDs), cs₄) ← parseExpTail cs₃
  some (ratOfParts neg intDs fracDs expNeg expDs, cs₄)

/-- `Number(string)`: trims, maps the empty string to `0`, accepts an optional
sign and a decimal literal (also the `.5` / `5.` forms), otherwise NaN.
(The hexadecimal / `Infinity` forms never occur in this pipeline and map to
NaN here.)  `none` is NaN. -/
def numOfString (s : Str) : Option ℚ :=
  let t := trimStr s
  if t.isEmpty then some 0
  else
    let (neg, t₁) := match t with | '-' :: r => (true, r) | '+' :: r => (false, r) | r => (false, r)
    let (intDs, t₂) := spanDigits t₁
    let (fracDs, t₃) :=
      match t₂ with
      | '.' :: r => spanDigits r
      | _ => ([], t₂)
    if intDs.isEmpty ∧ fracDs.isEmpty then none
    else
      match parseExpTail t₃ with
      | some ((expNeg, expDs), []) => some (ratOfParts neg intDs fracDs expNeg expDs)
      | _ => none

/-- `Number(v)` for a general value; always a JS number (possibly NaN), so the
result is the `Option ℚ` payload of a `JVal.num`.  Arrays convert through
their string form: `[] → 0`, a singleton converts its element, anything else
is NaN; plain objects are NaN. -/
def jsToNumber : JVal → Option ℚ
  | .num v => v
  | .null => some 0
  | .undefined => none
  | .bool b => some (if b then 1 else 0)
  | .str s => numOfString s
  | .arr [] => some 0
  | .arr [x] =>
    match x with
    | .num v => v
    | .str s => numOfString s
    | .null => some 0
    | .undefined => some 0
    | _ => none
  | .arr (_ :: _ :: _) => none
  | .obj _ => none

/-! ### `JSON.parse` (recursive descent, fuelled) -/

/-- JSON whitespace (RFC 8259). -/
def isJsonWs (c : Char) : Bool := c = ' ' || c = '\t' || c = '\n' || c = '\r'

def skipJWs (cs : Str) : Str := cs.dropWhile isJsonWs

def escChar (c : Char) : Option Char :=
  match c with
  | '"' => some '"'
  | '\\' => some '\\'
  | '/' => some '/'
  | 'b' => some '\x08'
  | 'f' => some '\x0c'
  | 'n' => some '\n'
  | 'r' => some '\r'
  | 't' => some '\t'
  | _ => none

def hexVal (c : Char) : Option Nat :=
  if '0' ≤ c ∧ c ≤ '9' then some (c.toNat - '0'.toNat)
  else if 'a' ≤ c ∧ c ≤ 'f' then some (c.toNat - 'a'.toNat + 10)
  else if 'A' ≤ c ∧ c ≤ 'F' then some (c.toNat - 'A'.toNat + 10)
  else none

/-- Parse a JSON string body (after the opening quote), returning the decoded
characters and the input after the closing quote.  `\uXXXX` maps the code
unit directly to a character (surrogate pairing is never exercised here). -/
def pStringBody : Str → Option (Str × Str)
  | [] => none
  | '"' :: rest => some ([], rest)
  | '\\' :: c :: rest =>
    if c = 'u' then
      match rest with
      | h₁ :: h₂ :: h₃ :: h₄ :: rest' => do
        let a ← hexVal h₁
        let b ← hexVal h₂
        let c' ← hexVal h₃
        let d ← hexVal h₄
        let (s, r) ← pStringBody rest'
        some (Char.ofNat (((a * 16 + b) * 16 + c') * 16 + d) :: s, r)
      | _ => none
    else do
      let e ← escChar c
      let (s, r) ← pStringBody rest
      some (e :: s, r)
  | c :: rest => do
    let (s, r) ← pStringBody rest
    some (c :: s, r)

/-- If `lit` is a leading run of `cs`, return the remainder. -/
def litRun (lit : Str) (cs : Str) : Option Str :=
  if cs.take lit.length = lit then some (cs.drop lit.length) else none

mutual

def pValue : Nat → Str → Option (JVal × Str)
  | 0, _ => none
  | fuel + 1, cs =>
    match cs with
    | '{' :: rest => pObjBody fuel (skipJWs rest)
    | '[' :: rest => pArrBody fuel (skipJWs rest)
    | '"' :: rest => (pStringBody rest).map (fun p => (JVal.str p.1, p.2))
    | 't' :: _ => (litRun "true".data cs).map (fun r => (JVal.bool true, r))
    | 'f' :: _ => (litRun "false".data cs).map (fun r => (JVal.bool false, r))
    | 'n' :: _ => (litRun "null".data cs).map (fun r => (JVal.null, r))
    | _ => (parseJsonNumber cs).map (fun p => (JVal.num (some p.1), p.2))

def pObjBody : Nat → Str → Option (JVal × Str)
  | 0, _ => none
  | fuel + 1, cs =>
    match cs with
    | '}' :: rest => some (JVal.obj [], rest)
    | _ => pMembers fuel cs []

def pMembers : Nat → Str → List (Str × JVal) → Option (JVal × Str)
  | 0, _, _ => none
  | fuel + 1, cs, acc =>
    match cs with
    | '"' :: rest => do
      let (k, r₁) ← pStringBody rest
      match skipJWs r₁ with
      | ':' :: r₂ => do
        let (v, r₃) ← pValue fuel (skipJWs r₂)
        let acc' := setFields acc k v
        match skipJWs r₃ with
        | ',' :: r₄ => pMembers fuel (skipJWs r₄) acc'
        | '}' :: r₄ => some (JVal.obj acc', r₄)
        | _ => none
      | _ => none
    | _ => none

def pArrBody : Nat → Str → Option (JVal × Str)
  | 0, _ => none
  | fuel + 1, cs =>
    match cs with
    | ']' :: rest => some (JVal.arr [], rest)
    | _ => pElems fuel cs []

def pElems : Nat → Str → List JVal → Option (JVal × Str)
  | 0, _, _ => none
  | fuel + 1, cs, acc => do
    let (v, r₁) ← pValue fuel cs
    match skipJWs r₁ with
    | ',' :: r₂ => pElems fuel (skipJWs r₂) (acc ++ [v])
    | ']' :: r₂ => some (JVal.arr (acc ++ [v]), r₂)
    | _ => none

end

/-- `JSON.parse(s)` (as an `Option`): one value, surrounded only by
whitespace. -/
def jsonParse (cs : Str) : Option JVal :=
  match pValue (cs.length + 1) (skipJWs cs) with
  | some (v, rest) => if (skipJWs rest).isEmpty then some v else none
  | none => none

/-! ### `parseJsonLoose` (the Loose JSON Extractor) -/

/-- The errors `parseJsonLoose` can throw.  `emptyResponse` and
`couldNotParse` are the two `new Error(...)` sites; `jsonSyntaxError` is the
`SyntaxError` propagating out of the final `JSON.parse` call (its
engine-dependent message text is not modelled).  None of the constructors
carries the input string. -/
inductive JsErr where
  | emptyResponse
  | couldNotParse
  | jsonSyntaxError
deriving DecidableEq

/-- The JS `message` of each error. -/
def errMessage : JsErr → Str
  | .emptyResponse => "Empty response".data
  | .couldNotParse => "Could not parse JSON".data
  | .jsonSyntaxError => "Unexpected token".data

/-- `t.replace(/^```[a-z]*\n?/i, '')` for a `t` that starts with three
backticks: drop them, a run of ASCII letters, and one optional newline. -/
def isAsciiLetter (c : Char) : Bool :=
  decide ('a' ≤ c ∧ c ≤ 'z') || decide ('A' ≤ c ∧ c ≤ 'Z')

def stripOpenFence (cs : Str) : Str :=
  match (cs.drop 3).dropWhile isAsciiLetter with
  | '\n' :: r => r
  | r => r

/-- `t.replace(/```$/, '')`. -/
def stripCloseFence (cs : Str) : Str :=
  match cs.reverse with
  | '`' :: '`' :: '`' :: rest => rest.reverse
  | _ => cs

/-- `t.replace(/```/g, '')`: remove every (non-overlapping, left-to-right)
occurrence of three backticks. -/
def removeFences : Str → Str
  | '`' :: '`' :: '`' :: rest => removeFences rest
  | c :: rest => c :: removeFences rest
  | [] => []

/-- `parseJsonLoose` from `functions/api/analyze.js` / `server.mjs` (the two
copies are identical), for a string argument. -/
def parseJsonLoose (s : Str) : Except JsErr JVal :=
  if s.isEmpty then .error .emptyResponse
  else
    let t₀ := trimStr s
    let t :=
      if t₀.take 3 = "```".data then trimStr (stripCloseFence (stripOpenFence t₀))
      else trimStr (removeFences t₀)
    match jsonParse t with
    | some v => .ok v
    | none =>
      match idxOfC '{' t, lastIdxOfC '}' t with
      | some a, some b =>
        if a < b then
          match jsonParse (sliceStr t a (b + 1)) with
          | some v => .ok v
          | none => .error .jsonSyntaxError
        else .error .couldNotParse
      | _, _ => .error .couldNotParse

/-- `parseJsonLoose(v)` for an arbitrary value: the
`if (!s || typeof s !== 'string')` guard throws `Empty response` for
non-strings and falsy values. -/
def parseJsonLooseV (v : JVal) : Except JsErr JVal :=
  match v with
  | .str s => parseJsonLoose s
  | _ => .error .emptyResponse

/-- The cleaned string `t` that `parseJsonLoose` computes before its parse
attempts (the fence branch or the backtick-removal branch). -/
def looseClean (s : Str) : Str :=
  if (trimStr s).take 3 = "```".data then
    trimStr (stripCloseFence (stripOpenFence (trimStr s)))
  else trimStr (removeFences (trimStr s))

/-! ### `getOutputText` (the Output Text Collector) -/

/-- `v.trim()` as a method call: a TypeError on every non-string. -/
def jsTrimMethod : JVal → Except Unit Str
  | .str s => .ok (trimStr s)
  | _ => .error ()

def kOutputText : Str := "output_text".data
def kOutput : Str := "output".data
def kContent : Str := "content".data
def kText : Str := "text".data

/-- Join with `'\n'`. -/
def joinNl : List Str → Str
  | [] => []
  | [s] => s
  | s :: rest => s ++ '\n' :: joinNl rest

/-- The nonempty trimmed `text` entries of one message's `content` list. -/
def partTexts (msg : JVal) : List Str :=
  match getOptF msg kContent with
  | .arr parts =>
    parts.filterMap (fun part =>
      match getOptF part kText with
      | .str t => if (trimStr t).isEmpty then none else some (trimStr t)
      | _ => none)
  | _ => []

/-- The `collected` local of `getOutputText`: the string `text` parts of
`output[*].content[*]`, joined by a newline and trimmed. -/
def codeCollected (o : JVal) : Str :=
  match getOptF o kOutput with
  | .arr msgs => trimStr (joinNl (msgs.flatMap partTexts))
  | _ => trimStr (joinNl [])

/-- `getOutputText` from `functions/api/analyze.js`: prefers a truthy
`output_text` whose trim is nonempty (a truthy non-string `output_text`
makes `.trim()` throw), otherwise collects the string `text` parts of
`output[*].content[*]`. -/
def getOutputText (o : JVal) : Except Unit Str :=
  if jsTruthy (getOptF o kOutputText) then
    match jsTrimMethod (getOptF o kOutputText) with
    | .error e => .error e
    | .ok t => if t.isEmpty then .ok (codeCollected o) else .ok t
  else .ok (codeCollected o)

/-! ### `enforceDeterministicCorrections` (the Deterministic Corrector)

The function body is a `try { ... } catch { /* ignore */ } return s;` around a
sequence of guarded in-place fixups.  Each fixup either updates the state or
throws without changing it, so the body is modelled as a list of atomic
steps; an exception aborts the remaining steps and the catch returns the
state reached so far. -/

def kTable : Str := "table".data
def kBoard : Str := "board".data
def kStreet : Str := "street".data
def kPot : Str := "pot".data
def kMinRaise : Str := "minRaise".data
def kMaxBet : Str := "maxBet".data
def kStakes : Str := "stakes".data
def kSb : Str := "sb".data
def kBb : Str := "bb".data
def kHero : Str := "hero".data
def kStack : Str := "stack".data
def kCommitted : Str := "committedThisStreet".data
def kHole : Str := "hole".data
def kPlayers : Str := "players".data
def kSeat : Str := "seat".data
def kPosition : Str := "position".data
def kInHand : Str := "inHand".data

abbrev Step := JVal → Except Unit JVal

/-- `{0:'preflop',3:'flop',4:'turn',5:'river'}[n]`. -/
def streetByLen : Nat → Option Str
  | 0 => some "preflop".data
  | 3 => some "flop".data
  | 4 => some "turn".data
  | 5 => some "river".data
  | _ => none

/-- The truthy entries of `s?.table?.board` when it is an array, else `[]`
(`Array.isArray(s?.table?.board) ? s.table.board.filter(Boolean) : []`). -/
def filteredBoard (s : JVal) : List JVal :=
  match getOptPath s [kTable, kBoard] with
  | .arr xs => xs.filter jsTruthy
  | _ => []

/-- `if (streetByLen && s.table) s.table.street = streetByLen;` — note the
plain `s.table` access, which throws when `s` is nullish, and the
street-string assignment which throws when `s.table` is a truthy
primitive. -/
def stepStreet : Step := fun s =>
  match streetByLen (filteredBoard s).length with
  | none => .ok s
  | some st =>
    match getField s kTable with
    | .error e => .error e
    | .ok t => if jsTruthy t then setPath s [kTable, kStreet] (.str st) else .ok s

/-- `v === null`. -/
def isNullStrict : JVal → Bool
  | .null => true
  | _ => false

/-- One numeric fixup
`if (s?....path != null) s....path = Number(s....path);`.
`ternary` records the (dead, since the guard already excludes `null`)
`=== null ? null :` wrapper present on `minRaise`, `maxBet` and
`hero.committedThisStreet`. -/
def stepCoerce (p : List Str) (ternary : Bool) : Step := fun s =>
  if jsNonNullish (getOptPath s p) then
    match getPathE s p with
    | .error e => .error e
    | .ok x =>
      setPath s p (if ternary ∧ isNullStrict x then JVal.null else JVal.num (jsToNumber x))
  else .ok s

/-- `if (!Array.isArray(s?.hero?.hole)) s.hero.hole = [];` — the assignment is
unguarded, so a missing or primitive `hero` throws here. -/
def stepHole : Step := fun s =>
  match getOptPath s [kHero, kHole] with
  | .arr _ => .ok s
  | _ => setPath s [kHero, kHole] (.arr [])

/-- The fields of the corrected player object
`{...p, seat: ..., stack: ..., committedThisStreet: ..., position: ..., inHand: ...}`
(only meaningful for a non-nullish `p`). -/
def correctedPlayerFields (p : JVal) : List (Str × JVal) :=
  let fs := spreadFields p
  let fs := setFields fs kSeat
    (if jsNonNullish (getFieldD p kSeat) then .num (jsToNumber (getFieldD p kSeat)) else .null)
  let fs := setFields fs kStack
    (if jsNonNullish (getFieldD p kStack) then .num (jsToNumber (getFieldD p kStack)) else .null)
  let fs := setFields fs kCommitted
    (if jsNonNullish (getFieldD p kCommitted) then .num (jsToNumber (getFieldD p kCommitted))
     else .null)
  let fs := setFields fs kPosition
    (if jsNonNullish (getFieldD p kPosition) then getFieldD p kPosition else .null)
  setFields fs kInHand (.bool (jsTruthy (getFieldD p kInHand)))

/-- The body of the `s.players.map(p => ({...p, ...}))` callback: throws when
`p` is nullish (property reads on `null`/`undefined`). -/
def correctPlayer (p : JVal) : Except Unit JVal :=
  match p with
  | .undefined => .error ()
  | .null => .error ()
  | _ => .ok (.obj (correctedPlayerFields p))

/-- `ps.map(correctPlayer)` with exception propagation. -/
def mapCorrect : List JVal → Except Unit (List JVal)
  | [] => .ok []
  | p :: ps =>
    match correctPlayer p with
    | .error e => .error e
    | .ok q =>
      match mapCorrect ps with
      | .error e => .error e
      | .ok qs => .ok (q :: qs)

/-- `if (Array.isArray(s?.players)) s.players = s.players.map(...)`. -/
def stepPlayers : Step := fun s =>
  match getOptF s kPlayers with
  | .arr ps =>
    match mapCorrect ps with
    | .error e => .error e
    | .ok ps' => setField s kPlayers (.arr ps')
  | _ => .ok s

def pPot : List Str := [kTable, kPot]
def pMinRaise : List Str := [kTable, kMinRaise]
def pMaxBet : List Str := [kTable, kMaxBet]
def pSb : List Str := [kTable, kStakes, kSb]
def pBb : List Str := [kTable, kStakes, kBb]
def pHeroStack : List Str := [kHero, kStack]
def pHeroCommitted : List Str := [kHero, kCommitted]

/-- The corrector's fixups in source order. -/
def correctionSteps : List Step :=
  [ stepStreet
  , stepCoerce pPot false
  , stepCoerce pMinRaise true
  , stepCoerce pMaxBet true
  , stepCoerce pSb false
  , stepCoerce pBb false
  , stepCoerce pHeroStack false
  , stepCoerce pHeroCommitted true
  , stepHole
  , stepPlayers ]

/-- The first nine fixups (everything before the `players` rewrite). -/
def firstNine : List Step :=
  [ stepStreet
  , stepCoerce pPot false
  , stepCoerce pMinRaise true
  , stepCoerce pMaxBet true
  , stepCoerce pSb false
  , stepCoerce pBb false
  , stepCoerce pHeroStack false
  , stepCoerce pHeroCommitted true
  , stepHole ]

/-- Run steps in order; the first exception aborts the remaining steps and the
surrounding `catch` returns the state reached so far. -/
def runBody : List Step → JVal → JVal
  | [], s => s
  | f :: fs, s =>
    match f s with
    | .ok s' => runBody fs s'
    | .error _ => s

/-- `enforceDeterministicCorrections` from `functions/api/analyze.js`. -/
def enforceDeterministicCorrections (s : JVal) : JVal :=
  runBody correctionSteps s

/-- Run a list of steps demanding that every one succeeds. -/
def runAllOk : List Step → JVal → Option JVal
  | [], s => some s
  | f :: fs, s =>
    match f s with
    | .ok s' => runAllOk fs s'
    | .error _ => none

/-! ### Self-check pass (`functions/api/analyze.js`, step 1d)

```js
if (corrRes.ok) {
  const corrJson = await corrRes.json();
  const correctedState = corrJson.output_parsed || (() => {
    const t = getOutputText(corrJson);
    return t ? parseJsonLoose(t) : null;
  })();
  if (correctedState) state = enforceDeterministicCorrections(correctedState);
}
```
An exception escaping this block (e.g. `parseJsonLoose` throwing on
unparseable text — there is no surrounding try/catch) propagates to the
handler's outer catch, which fails the whole request with a 500
"Server error". -/

def kOutputParsed : Str := "output_parsed".data

/-- The self-check fetch outcome: `ok` status flag and the parsed JSON body. -/
structure FetchResp where
  ok : Bool
  body : JVal

/-- The state after the self-check block, or `.error` when an exception
escapes it (failing the request). -/
def selfCheckPass (state : JVal) (r : FetchResp) : Except Unit JVal :=
  if r.ok then do
    let op ← getField r.body kOutputParsed
    let corrected ←
      if jsTruthy op then pure op
      else do
        let t ← getOutputText r.body
        if t.isEmpty then pure JVal.null
        else
          match parseJsonLoose t with
          | .ok v => pure v
          | .error _ => .error ()
    if jsTruthy corrected then pure (enforceDeterministicCorrections corrected)
    else pure state
  else pure state

/-! ### The `server.mjs` request handler (`app.post('/api/analyze')`)

External effects are passed in as values: whether the multipart request
carried an `image` file, and the outcomes of the two OpenAI SDK calls
(`.error` = the SDK promise rejected, caught by the outer catch).  The
boolean of the result records whether the strategy call was made. -/

def kRecommendation : Str := "recommendation".data

inductive HResp where
  | noImage
  | serverError
  | parseFail (raw : JVal)
  | incomplete (state : JVal)
  | strategyParseFail (stratRaw : JVal) (state : JVal)
  | success (state : JVal) (rec : JVal)

/-- The HTTP status of each response (`serverError` uses the
`err.status || 500` fallback; 500 is shown for the generic case). -/
def statusOf : HResp → Nat
  | .noImage => 400
  | .serverError => 500
  | .parseFail _ => 422
  | .incomplete _ => 422
  | .strategyParseFail _ _ => 422
  | .success _ _ => 200

/-- `!state?.table || !state?.hero || !Array.isArray(state?.players)`. -/
def shapeBad (st : JVal) : Bool :=
  !jsTruthy (getOptF st kTable) ||
  !jsTruthy (getOptF st kHero) ||
  !(match getOptF st kPlayers with | .arr _ => true | _ => false)

/-- The `server.mjs` analyze handler. -/
def analyzeHandler (hasImage : Bool) (extraction strategy : Except Unit JVal) :
    HResp × Bool :=
  if !hasImage then (.noImage, false)
  else
    match extraction with
    | .error _ => (.serverError, false)
    | .ok ex =>
      match getField ex kOutputText with
      | .error _ => (.serverError, false)
      | .ok ot =>
        let raw := if jsTruthy ot then ot else .str []
        match parseJsonLooseV raw with
        | .error _ => (.parseFail raw, false)
        | .ok st =>
          if shapeBad st then (.incomplete st, false)
          else
            match strategy with
            | .error _ => (.serverError, true)
            | .ok stj =>
              match getField stj kOutputText with
              | .error _ => (.serverError, true)
              | .ok sot =>
                let sraw := if jsTruthy sot then sot else .str []
                match parseJsonLooseV sraw with
                | .error _ => (.strategyParseFail sraw st, true)
                | .ok rec =>
                  match getField rec kRecommendation with
                  | .error _ => (.serverError, true)
                  | .ok r => (.success st r, true)

/-! ### Claim-side (spec-worded) definitions and auxiliary predicates -/

/-- Is the value a JS string? -/
def isStrV : JVal → Bool
  | .str _ => true
  | _ => false

/-- Is the value a JS number (including NaN)? -/
def isNumV : JVal → Bool
  | .num _ => true
  | _ => false

/-- Is the value an array? -/
def isArrV : JVal → Bool
  | .arr _ => true
  | _ => false

/-- Is the value an object? -/
def isObjV : JVal → Bool
  | .obj _ => true
  | _ => false

/-- Two key paths diverge: they disagree at some coordinate that both
possess. Writing through one such path cannot change a read through the
other. -/
def divergeB : List Str → List Str → Bool
  | k :: ks, k' :: ks' => if k = k' then divergeB ks ks' else true
  | _, _ => false

/-- The write footprint of the corrector (apart from the `players`
rewrite): `table.street`, the seven coerced numeric paths, and
`hero.hole`. -/
def writeFootprint : List (List Str) :=
  [ [kTable, kStreet], pPot, pMinRaise, pMaxBet, pSb, pBb
  , pHeroStack, pHeroCommitted, [kHero, kHole] ]

/-- The five player fields rewritten by the `players` map. -/
def playerFieldKeys : List Str := [kSeat, kStack, kCommitted, kPosition, kInHand]

/-- The Output Text Collector as described by the (amended) claim, written
independently of `getOutputText`: the trimmed `output_text` when it is a
string with nonempty trim; otherwise the string-typed `text` parts of
`output[*].content[*]` with nonempty trim, each trimmed and joined by a
newline; otherwise the empty string. -/
def specOutputText (o : JVal) : Str :=
  match getOptF o kOutputText with
  | .str t =>
    if (trimStr t).isEmpty then specCollected o else trimStr t
  | _ => specCollected o
where
  specCollected (o : JVal) : Str :=
    match getOptF o kOutput with
    | .arr msgs =>
      joinNl ((msgs.map partTexts).foldr (· ++ ·) [])
    | _ => []

/-- The seven numeric paths coerced by the Deterministic Corrector. -/
def numPaths : List (List Str) :=
  [pPot, pMinRaise, pMaxBet, pSb, pBb, pHeroStack, pHeroCommitted]

/-- The shape hypotheses under which the corrector completes every fixup
(the amended claim C3): the state and its `hero` are objects, `table` is an
object or falsy, `players` entries are non-nullish. -/
def InvC3 (v t : JVal) : Prop :=
  isObjV t = true ∧ isObjV (getOptF t kHero) = true ∧
  (isObjV (getOptF t kTable) = true ∨ jsTruthy (getOptF t kTable) = false) ∧
  getOptF t kPlayers = v

/-- Pairwise relation between an input player entry and its corrected form:
the three numeric fields are renormalized to number-or-null. -/
def playerNumFix (p q : JVal) : Prop :=
  (getOptF q kSeat = if jsNonNullish (getOptF p kSeat)
    then JVal.num (jsToNumber (getOptF p kSeat)) else JVal.null) ∧
  (getOptF q kStack = if jsNonNullish (getOptF p kStack)
    then JVal.num (jsToNumber (getOptF p kStack)) else JVal.null) ∧
  (getOptF q kCommitted = if jsNonNullish (getOptF p kCommitted)
    then JVal.num (jsToNumber (getOptF p kCommitted)) else JVal.null)

/-- Pairwise relation between an input player entry and its corrected form:
keys outside the five rewritten ones are untouched (for object entries). -/
def playerExtras (p q : JVal) : Prop :=
  ∀ k, k ∉ playerFieldKeys → isObjV p = true → getOptF q k = getOptF p k

/-! ### Concrete instances used by witnesses and counterexamples -/

/-- `{a: 1}`. -/
def vA : JVal := .obj [("a".data, .num (some 1))]

/-- C2 counterexample input: a board of raw length 4 containing one falsy
(empty-string) entry. -/
def sC2 : JVal :=
  .obj [(kTable, .obj
    [ (kBoard, .arr [.str "Qs".data, .str "7d".data, .str "2c".data, .str []])
    , (kStreet, .str "river".data)])]

/-- C3 counterexample input: a `null` players entry ahead of a player whose
stack is the string `"5"`. -/
def sC3 : JVal :=
  .obj [ (kTable, .obj [(kBoard, .arr []), (kPot, .str "7".data)])
       , (kHero, .obj [])
       , (kPlayers, .arr [.null, .obj [(kStack, .str "5".data)]])]

/-- C2 witness input: a clean three-card board with an object table and an
object hero. -/
def sC2W : JVal :=
  .obj [ (kTable, .obj [(kBoard, .arr [.str "Qs".data, .str "7d".data, .str "2c".data])])
       , (kHero, .obj []) ]

/-- C3 witness input: every numeric field a numeric string, one well-formed
player. -/
def sC3W : JVal :=
  .obj [ (kTable, .obj [(kPot, .str "7".data)])
       , (kHero, .obj [(kStack, .str "3".data)])
       , (kPlayers, .arr [.obj [(kStack, .str "5".data)]]) ]

/-- A prior state for the self-check scenarios. -/
def sPrior : JVal := .obj [(kTable, .null)]

/-- A self-check response that is `ok`, has no `output_parsed`, and whose
collected output text is unparseable. -/
def respUnparseable : FetchResp :=
  ⟨true, .obj [(kOutput, .arr [.obj [(kContent, .arr
    [.obj [(kText, .str "not json at all".data)]])]])]⟩

/-- A self-check response with a non-ok HTTP status. -/
def respNotOk : FetchResp := ⟨false, .null⟩

/-- An `ok` self-check response carrying no parseable object and no text. -/
def respEmptyText : FetchResp := ⟨true, .obj []⟩

/-- Extraction SDK result whose `output_text` parses to an object lacking
`table` / `hero` / `players`. -/
def exIncomplete : JVal := .obj [(kOutputText, .str "\x7b\"a\":1\x7d".data)]

/-! ## Lemmas

### Field-list and path lemmas -/

theorem lookupF_setFields_self (fs : List (Str × JVal)) (k : Str) (v : JVal) :
    lookupF (setFields fs k v) k = some v := by
  induction fs with
  | nil => simp [setFields, lookupF]
  | cons hd tl ih =>
    obtain ⟨k', v'⟩ := hd
    by_cases h : k' = k
    · simp [setFields, h, lookupF]
    · simp [setFields, h, lookupF, ih]

theorem lookupF_setFields_ne (fs : List (Str × JVal)) (k : Str) (v : JVal)
    (k' : Str) (h : k ≠ k') :
    lookupF (setFields fs k v) k' = lookupF fs k' := by
  induction fs with
  | nil => simp [setFields, lookupF, h]
  | cons hd tl ih =>
    obtain ⟨k₀, v₀⟩ := hd
    by_cases h₀ : k₀ = k
    · subst h₀
      simp [setFields, lookupF, h, ih]
    · simp [setFields, h₀, lookupF, ih]

theorem setFields_self (fs : List (Str × JVal)) (k : Str) (v : JVal)
    (h : lookupF fs k = some v) : setFields fs k v = fs := by
  induction fs with
  | nil => simp [lookupF] at h
  | cons hd tl ih =>
    obtain ⟨k₀, v₀⟩ := hd
    by_cases h₀ : k₀ = k
    · subst h₀
      simp [lookupF] at h
      simp [setFields, h]
    · simp [lookupF, h₀] at h
      simp [setFields, h₀, ih h]

theorem setFields_setFields (fs : List (Str × JVal)) (k : Str) (v w : JVal) :
    setFields (setFields fs k v) k w = setFields fs k w := by
  induction fs with
  | nil => simp [setFields]
  | cons hd tl ih =>
    obtain ⟨k₀, v₀⟩ := hd
    by_cases h₀ : k₀ = k
    · simp [setFields, h₀]
    · simp [setFields, h₀, ih]

theorem getOptF_of_nonNullish (v : JVal) (k : Str) (h : jsNonNullish v = true) :
    getOptF v k = getFieldD v k := by
  cases v <;> simp_all [getOptF, jsNonNullish]

theorem getField_of_nonNullish (v : JVal) (k : Str) (h : jsNonNullish v = true) :
    getField v k = .ok (getFieldD v k) := by
  cases v <;> simp_all [getField, jsNonNullish]

theorem getOptPath_undefined (ks : List Str) (h : ks ≠ []) :
    getOptPath JVal.undefined ks = JVal.undefined := by
  induction ks with
  | nil => simp at h
  | cons k ks ih =>
    show getOptPath (getOptF JVal.undefined k) ks = JVal.undefined
    rcases ks with _ | ⟨k', ks'⟩
    · rfl
    · exact ih (by simp)

theorem getOptPath_null (ks : List Str) (h : ks ≠ []) :
    getOptPath JVal.null ks = JVal.undefined := by
  rcases ks with _ | ⟨k, ks⟩
  · simp at h
  · show getOptPath (getOptF JVal.null k) ks = JVal.undefined
    rcases ks with _ | ⟨k', ks'⟩
    · rfl
    · exact getOptPath_undefined _ (by simp)

theorem nonNullish_root (v : JVal) (ks : List Str) (h : ks ≠ [])
    (hnn : jsNonNullish (getOptPath v ks) = true) : jsNonNullish v = true := by
  cases v <;> first
    | rfl
    | · exfalso
        first
          | rw [getOptPath_undefined ks h] at hnn; exact absurd hnn (by simp [jsNonNullish])
          | rw [getOptPath_null ks h] at hnn; exact absurd hnn (by simp [jsNonNullish])

theorem getPathE_of_nonNullish (p : List Str) (s : JVal)
    (h : jsNonNullish (getOptPath s p) = true) :
    getPathE s p = .ok (getOptPath s p) := by
  induction p generalizing s with
  | nil => rfl
  | cons k ks ih =>
    have hs : jsNonNullish s = true := nonNullish_root s (k :: ks) (by simp) h
    have h₁ : getOptPath s (k :: ks) = getOptPath (getOptF s k) ks := rfl
    rw [h₁] at h
    show (match getField s k with
      | .error e => Except.error e
      | .ok t => getPathE t ks) = Except.ok (getOptPath s (k :: ks))
    rw [getField_of_nonNullish s k hs, ← getOptF_of_nonNullish s k hs]
    show getPathE (getOptF s k) ks = _
    rw [ih _ h]
    rfl

theorem getOptF_obj (fs : List (Str × JVal)) (k : Str) :
    getOptF (.obj fs) k = (lookupF fs k).getD .undefined := rfl

theorem setField_obj (fs : List (Str × JVal)) (k : Str) (v : JVal) :
    setField (.obj fs) k v = .ok (.obj (setFields fs k v)) := rfl

theorem setPath_undefined (ρ : List Str) (v : JVal) (hρ : ρ ≠ []) :
    setPath JVal.undefined ρ v = .error () := by
  rcases ρ with _ | ⟨k, ks⟩
  · exact absurd rfl hρ
  · rcases ks with _ | ⟨k', ks'⟩ <;> rfl

theorem setField_inv (s : JVal) (k : Str) (v s' : JVal) (h : setField s k v = .ok s') :
    (∃ fs, s = .obj fs ∧ s' = .obj (setFields fs k v)) ∨ (∃ xs, s = .arr xs ∧ s' = s) := by
  cases s with
  | obj fs =>
    refine Or.inl ⟨fs, rfl, ?_⟩
    simpa [setField] using h.symm
  | arr xs =>
    refine Or.inr ⟨xs, rfl, ?_⟩
    simpa [setField] using h.symm
  | _ => simp [setField] at h

theorem setPath_cons_inv (s : JVal) (k k' : Str) (ks : List Str) (v s' : JVal)
    (h : setPath s (k :: k' :: ks) v = .ok s') :
    ∃ fs t', s = .obj fs ∧ setPath (getFieldD s k) (k' :: ks) v = .ok t' ∧
      s' = .obj (setFields fs k t') := by
  cases s with
  | obj fs =>
    have hg : getField (JVal.obj fs) k = .ok (getFieldD (JVal.obj fs) k) := rfl
    rw [show setPath (JVal.obj fs) (k :: k' :: ks) v =
        (match setPath (getFieldD (JVal.obj fs) k) (k' :: ks) v with
         | .error e => Except.error e
         | .ok t' => setField (JVal.obj fs) k t') from rfl] at h
    cases hsub : setPath (getFieldD (JVal.obj fs) k) (k' :: ks) v with
    | error e => rw [hsub] at h; exact absurd h (by simp)
    | ok t' =>
      rw [hsub] at h
      refine ⟨fs, t', rfl, rfl, ?_⟩
      simpa [setField] using h.symm
  | arr xs =>
    have : setPath (JVal.arr xs) (k :: k' :: ks) v =
        (match setPath JVal.undefined (k' :: ks) v with
         | .error e => Except.error e
         | .ok t' => setField (JVal.arr xs) k t') := rfl
    rw [this, setPath_undefined (k' :: ks) v (by simp)] at h
    exact absurd h (by simp)
  | bool b =>
    have : setPath (JVal.bool b) (k :: k' :: ks) v =
        (match setPath JVal.undefined (k' :: ks) v with
         | .error e => Except.error e
         | .ok t' => setField (JVal.bool b) k t') := rfl
    rw [this, setPath_undefined (k' :: ks) v (by simp)] at h
    exact absurd h (by simp)
  | num q =>
    have : setPath (JVal.num q) (k :: k' :: ks) v =
        (match setPath JVal.undefined (k' :: ks) v with
         | .error e => Except.error e
         | .ok t' => setField (JVal.num q) k t') := rfl
    rw [this, setPath_undefined (k' :: ks) v (by simp)] at h
    exact absurd h (by simp)
  | str cs =>
    have : setPath (JVal.str cs) (k :: k' :: ks) v =
        (match setPath JVal.undefined (k' :: ks) v with
         | .error e => Except.error e
         | .ok t' => setField (JVal.str cs) k t') := rfl
    rw [this, setPath_undefined (k' :: ks) v (by simp)] at h
    exact absurd h (by simp)
  | undefined => exact absurd h (by simp [setPath, getField])
  | null => exact absurd h (by simp [setPath, getField])

/-- Writing through `k :: ρ` does not change any other top-level field. -/
theorem getOptF_setPath_ne (s : JVal) (k : Str) (ks : List Str) (v s' : JVal)
    (h : setPath s (k :: ks) v = .ok s') (k₀ : Str) (hne : k₀ ≠ k) :
    getOptF s' k₀ = getOptF s k₀ := by
  rcases ks with _ | ⟨k', ks⟩
  · rcases setField_inv s k v s' h with ⟨fs, rfl, rfl⟩ | ⟨xs, rfl, rfl⟩
    · simp [getOptF_obj, lookupF_setFields_ne fs k v k₀ (fun e => hne e.symm)]
    · rfl
  · rcases setPath_cons_inv s k k' ks v s' h with ⟨fs, t', rfl, _, rfl⟩
    simp [getOptF_obj, lookupF_setFields_ne fs k t' k₀ (fun e => hne e.symm)]

/-- Writing through a diverging path does not change a read. -/
theorem getOptPath_setPath_diverge (ρ : List Str) (π : List Str)
    (hd : divergeB π ρ = true) (s v s' : JVal) (h : setPath s ρ v = .ok s') :
    getOptPath s' π = getOptPath s π := by
  induction ρ generalizing π s s' with
  | nil => rcases π with _ | ⟨k₀, π'⟩ <;> simp [divergeB] at hd
  | cons k ρ' ih =>
    rcases π with _ | ⟨k₀, π'⟩
    · simp [divergeB] at hd
    · by_cases hk : k₀ = k
      · subst hk
        have hd' : divergeB π' ρ' = true := by simpa [divergeB] using hd
        rcases ρ' with _ | ⟨k', ks⟩
        · rcases π' with _ | _ <;> simp [divergeB] at hd'
        · rcases setPath_cons_inv s k₀ k' ks v s' h with ⟨fs, t', rfl, hsub, rfl⟩
          show getOptPath (getOptF (JVal.obj (setFields fs k₀ t')) k₀) π' =
            getOptPath (getOptF (JVal.obj fs) k₀) π'
          rw [getOptF_obj, lookupF_setFields_self fs k₀ t']
          rw [show ((some t').getD JVal.undefined) = t' from rfl]
          exact ih π' hd' (getOptF (JVal.obj fs) k₀) t' hsub
      · show getOptPath (getOptF s' k₀) π' = getOptPath (getOptF s k₀) π'
        rw [getOptF_setPath_ne s k ρ' v s' h k₀ hk]

/-- Reading back a successful write along a chain whose read was
non-nullish. -/
theorem getOptPath_setPath_self (ρ : List Str) (s v s' : JVal)
    (hnn : jsNonNullish (getOptPath s ρ) = true) (h : setPath s ρ v = .ok s') :
    getOptPath s' ρ = v := by
  induction ρ generalizing s s' with
  | nil =>
    have : s' = v := by simpa [setPath] using h.symm
    simp [getOptPath, this]
  | cons k ks ih =>
    rcases ks with _ | ⟨k', ks'⟩
    · rcases setField_inv s k v s' h with ⟨fs, rfl, rfl⟩ | ⟨xs, rfl, rfl⟩
      · show getOptPath (getOptF (JVal.obj (setFields fs k v)) k) [] = v
        rw [getOptF_obj, lookupF_setFields_self]
        rfl
      · exact absurd hnn (by simp [getOptPath, getOptF, getFieldD, jsNonNullish])
    · rcases setPath_cons_inv s k k' ks' v s' h with ⟨fs, t', rfl, hsub, rfl⟩
      have hnn' : jsNonNullish (getOptPath (getFieldD (JVal.obj fs) k) (k' :: ks')) = true := hnn
      show getOptPath (getOptF (JVal.obj (setFields fs k t')) k) (k' :: ks') = v
      rw [getOptF_obj, lookupF_setFields_self fs k t']
      exact ih (getFieldD (JVal.obj fs) k) t' hnn' hsub

/-- Re-running a successful write is a no-op. -/
theorem setPath_idem (ρ : List Str) (s v s' : JVal) (h : setPath s ρ v = .ok s') :
    setPath s' ρ v = .ok s' := by
  induction ρ generalizing s s' with
  | nil =>
    have : v = s' := by simpa [setPath] using h
    simp [setPath, this]
  | cons k ks ih =>
    rcases ks with _ | ⟨k', ks'⟩
    · rcases setField_inv s k v s' h with ⟨fs, rfl, rfl⟩ | ⟨xs, rfl, rfl⟩
      · show setField (JVal.obj (setFields fs k v)) k v = _
        rw [setField_obj, setFields_setFields]
      · exact h
    · rcases setPath_cons_inv s k k' ks' v s' h with ⟨fs, t', rfl, hsub, rfl⟩
      have hidem := ih (getFieldD (JVal.obj fs) k) t' hsub
      have hget : getFieldD (JVal.obj (setFields fs k t')) k = t' := by
        simp [getFieldD, lookupF_setFields_self]
      show (match setPath (getFieldD (JVal.obj (setFields fs k t')) k) (k' :: ks') v with
        | .error e => Except.error e
        | .ok u => setField (JVal.obj (setFields fs k t')) k u) =
        Except.ok (JVal.obj (setFields fs k t'))
      rw [hget, hidem]
      show setField (JVal.obj (setFields fs k t')) k t' = Except.ok (JVal.obj (setFields fs k t'))
      rw [setField_obj, setFields_setFields]

/-- A write through a non-nullish chain succeeds. -/
theorem setPath_ok_of_nonNullish (ρ : List Str) (s : JVal) (hρ : ρ ≠ [])
    (hnn : jsNonNullish (getOptPath s ρ) = true) (v : JVal) :
    ∃ s', setPath s ρ v = .ok s' := by
  induction ρ generalizing s with
  | nil => exact absurd rfl hρ
  | cons k ks ih =>
    have hroot : ∃ fs, s = .obj fs := by
      cases s <;>
        first
        | exact ⟨_, rfl⟩
        | · exfalso
            rcases ks with _ | ⟨k', ks'⟩
            · have h₁ : jsNonNullish JVal.undefined = true := hnn
              simp [jsNonNullish] at h₁
            · have h₁ : jsNonNullish (getOptPath JVal.undefined (k' :: ks')) = true := hnn
              rw [getOptPath_undefined _ (by simp)] at h₁
              simp [jsNonNullish] at h₁
    obtain ⟨fs, rfl⟩ := hroot
    rcases ks with _ | ⟨k', ks'⟩
    · exact ⟨JVal.obj (setFields fs k v), setField_obj fs k v⟩
    · have hnn' : jsNonNullish (getOptPath (getFieldD (JVal.obj fs) k) (k' :: ks')) = true := hnn
      obtain ⟨t', ht'⟩ := ih (getFieldD (JVal.obj fs) k) (by simp) hnn'
      refine ⟨.obj (setFields fs k t'), ?_⟩
      show (match setPath (getFieldD (JVal.obj fs) k) (k' :: ks') v with
        | .error e => Except.error e
        | .ok u => setField (JVal.obj fs) k u) =
        Except.ok (JVal.obj (setFields fs k t'))
      rw [ht']
      rfl

theorem setFields_eq_self (fs : List (Str × JVal)) (k : Str) (v : JVal)
    (h : setFields fs k v = fs) : lookupF fs k = some v := by
  induction fs with
  | nil => simp [setFields] at h
  | cons hd tl ih =>
    obtain ⟨k₀, v₀⟩ := hd
    by_cases h₀ : k₀ = k
    · subst h₀
      simp [setFields] at h
      simp [lookupF, h]
    · simp [setFields, h₀] at h
      simp [lookupF, h₀, ih h]

theorem getOptF_of_falsy (v : JVal) (k : Str) (h : jsTruthy v = false) :
    getOptF v k = .undefined := by
  cases v with
  | obj fs => simp [jsTruthy] at h
  | arr xs => simp [jsTruthy] at h
  | str s => cases s <;> simp_all [jsTruthy, getOptF, getFieldD]
  | _ => rfl

theorem isNullStrict_of_nonNullish (x : JVal) (h : jsNonNullish x = true) :
    isNullStrict x = false := by
  cases x <;> simp_all [jsNonNullish, isNullStrict]

/-- Writing the value already present (and non-nullish) is a no-op. -/
theorem setPath_same_value (ρ : List Str) (t v : JVal) (hρ : ρ ≠ [])
    (hget : getOptPath t ρ = v) (hnn : jsNonNullish v = true) :
    setPath t ρ v = .ok t := by
  induction ρ generalizing t with
  | nil => exact absurd rfl hρ
  | cons k ks ih =>
    have hroot : ∃ fs, t = .obj fs := by
      cases t <;>
        first
        | exact ⟨_, rfl⟩
        | · exfalso
            rcases ks with _ | ⟨k', ks'⟩
            · have h₁ : JVal.undefined = v := hget
              rw [← h₁] at hnn
              simp [jsNonNullish] at hnn
            · have h₁ : getOptPath JVal.undefined (k' :: ks') = v := hget
              rw [getOptPath_undefined _ (by simp)] at h₁
              rw [← h₁] at hnn
              simp [jsNonNullish] at hnn
    obtain ⟨fs, rfl⟩ := hroot
    have hlook : lookupF fs k = some (getFieldD (JVal.obj fs) k) := by
      cases hl : lookupF fs k with
      | some w => simp [getFieldD, hl]
      | none =>
        exfalso
        have hu : getFieldD (JVal.obj fs) k = JVal.undefined := by simp [getFieldD, hl]
        rcases ks with _ | ⟨k', ks'⟩
        · have : getOptPath (JVal.obj fs) [k] = getFieldD (JVal.obj fs) k := rfl
          rw [this, hu] at hget
          rw [← hget] at hnn
          simp [jsNonNullish] at hnn
        · have h₁ : getOptPath (getFieldD (JVal.obj fs) k) (k' :: ks') = v := hget
          rw [hu, getOptPath_undefined _ (by simp)] at h₁
          rw [← h₁] at hnn
          simp [jsNonNullish] at hnn
    rcases ks with _ | ⟨k', ks'⟩
    · have hv : getFieldD (JVal.obj fs) k = v := hget
      show setField (JVal.obj fs) k v = .ok (JVal.obj fs)
      rw [setField_obj, setFields_self fs k v (hv ▸ hlook)]
    · have hget' : getOptPath (getFieldD (JVal.obj fs) k) (k' :: ks') = v := hget
      have hsub := ih (getFieldD (JVal.obj fs) k) (by simp) hget'
      show (match setPath (getFieldD (JVal.obj fs) k) (k' :: ks') v with
        | .error e => Except.error e
        | .ok u => setField (JVal.obj fs) k u) = Except.ok (JVal.obj fs)
      rw [hsub]
      show setField (JVal.obj fs) k (getFieldD (JVal.obj fs) k) = Except.ok (JVal.obj fs)
      rw [setField_obj, setFields_self fs k _ hlook]

/-- A successful write leaves the root either unchanged or an object both
before and after. -/
theorem setPath_result_kind (ρ : List Str) (s v s' : JVal) (hρ : ρ ≠ [])
    (h : setPath s ρ v = .ok s') :
    s' = s ∨ ((∃ fs, s = .obj fs) ∧ (∃ fs', s' = .obj fs')) := by
  rcases ρ with _ | ⟨k, ks⟩
  · exact absurd rfl hρ
  · rcases ks with _ | ⟨k', ks'⟩
    · rcases setField_inv s k v s' h with ⟨fs, rfl, rfl⟩ | ⟨xs, rfl, rfl⟩
      · exact Or.inr ⟨⟨fs, rfl⟩, ⟨_, rfl⟩⟩
      · exact Or.inl rfl
    · rcases setPath_cons_inv s k k' ks' v s' h with ⟨fs, t', rfl, _, rfl⟩
      exact Or.inr ⟨⟨fs, rfl⟩, ⟨_, rfl⟩⟩

/-- Two-link write through an array node is a no-op (the expando property
would be dropped by serialization). -/
theorem setPath2_self_arr (fs : List (Str × JVal)) (k₁ k₂ : Str) (xs : List JVal)
    (v : JVal) (harr : getFieldD (JVal.obj fs) k₁ = .arr xs) :
    setPath (JVal.obj fs) [k₁, k₂] v = .ok (JVal.obj fs) := by
  have hlook : lookupF fs k₁ = some (.arr xs) := by
    cases hl : lookupF fs k₁ with
    | some w => simp [getFieldD, hl] at harr; rw [harr]
    | none => simp [getFieldD, hl] at harr
  show (match setPath (getFieldD (JVal.obj fs) k₁) [k₂] v with
    | .error e => Except.error e
    | .ok u => setField (JVal.obj fs) k₁ u) = Except.ok (JVal.obj fs)
  rw [harr]
  show setField (JVal.obj fs) k₁ (.arr xs) = Except.ok (JVal.obj fs)
  rw [setField_obj, setFields_self fs k₁ _ hlook]

/-! ### Step-level lemmas -/

theorem stepCoerce_ok_inv (p : List Str) (flag : Bool) (s s' : JVal)
    (h : stepCoerce p flag s = .ok s') :
    (jsNonNullish (getOptPath s p) = false ∧ s' = s) ∨
    (jsNonNullish (getOptPath s p) = true ∧
      setPath s p (.num (jsToNumber (getOptPath s p))) = .ok s') := by
  by_cases hg : jsNonNullish (getOptPath s p) = true
  · right
    refine ⟨hg, ?_⟩
    have h' : (match getPathE s p with
      | .error e => Except.error e
      | .ok x =>
        setPath s p (if flag ∧ isNullStrict x then JVal.null
          else JVal.num (jsToNumber x))) = Except.ok s' := by
      rw [show (match getPathE s p with
        | .error e => Except.error e
        | .ok x =>
          setPath s p (if flag ∧ isNullStrict x then JVal.null
            else JVal.num (jsToNumber x))) = stepCoerce p flag s from (if_pos hg).symm]
      exact h
    rw [getPathE_of_nonNullish p s hg] at h'
    have h'' : setPath s p
        (if flag ∧ isNullStrict (getOptPath s p) then JVal.null
         else JVal.num (jsToNumber (getOptPath s p))) = Except.ok s' := h'
    rwa [if_neg (by simp [isNullStrict_of_nonNullish _ hg])] at h''
  · left
    have hg' : jsNonNullish (getOptPath s p) = false := by
      cases hv : jsNonNullish (getOptPath s p)
      · rfl
      · exact absurd hv hg
    refine ⟨hg', ?_⟩
    have h' : (Except.ok s : Except Unit JVal) = Except.ok s' := by
      rw [show (Except.ok s : Except Unit JVal) = stepCoerce p flag s from (if_neg hg).symm]
      exact h
    exact (Except.ok.inj h').symm

/-- The corrected states are exactly those whose value at `p` is absent,
nullish or already a number. -/
theorem stepCoerce_fix_iff (p : List Str) (flag : Bool) (t : JVal) (hρ : p ≠ []) :
    stepCoerce p flag t = .ok t ↔
      (jsNonNullish (getOptPath t p) = false ∨ ∃ w, getOptPath t p = .num w) := by
  constructor
  · intro h
    rcases stepCoerce_ok_inv p flag t t h with ⟨hg, _⟩ | ⟨hg, hset⟩
    · exact Or.inl hg
    · right
      refine ⟨jsToNumber (getOptPath t p), ?_⟩
      exact getOptPath_setPath_self p t _ t hg hset
  · intro h
    rcases h with hg | ⟨w, hw⟩
    · show stepCoerce p flag t = .ok t
      rw [show stepCoerce p flag t = if jsNonNullish (getOptPath t p) = true then _ else Except.ok t
        from rfl, if_neg (by simp [hg])]
    · have hg : jsNonNullish (getOptPath t p) = true := by rw [hw]; rfl
      have hstep := stepCoerce_ok_inv p flag t
      show stepCoerce p flag t = .ok t
      have runmatch : stepCoerce p flag t =
          setPath t p (if flag ∧ isNullStrict (getOptPath t p) then JVal.null
            else JVal.num (jsToNumber (getOptPath t p))) := by
        rw [show stepCoerce p flag t = if jsNonNullish (getOptPath t p) = true then
            (match getPathE t p with
             | .error e => Except.error e
             | .ok x => setPath t p (if flag ∧ isNullStrict x then JVal.null
                 else JVal.num (jsToNumber x))) else Except.ok t from rfl]
        rw [if_pos hg, getPathE_of_nonNullish p t hg]
      rw [runmatch, if_neg (by simp [isNullStrict_of_nonNullish _ hg])]
      have : JVal.num (jsToNumber (getOptPath t p)) = getOptPath t p := by
        rw [hw]; rfl
      rw [this]
      exact setPath_same_value p t _ hρ rfl hg

theorem stepCoerce_preserve (p : List Str) (flag : Bool) (s s' : JVal) (π : List Str)
    (h : stepCoerce p flag s = .ok s') (hd : divergeB π p = true) :
    getOptPath s' π = getOptPath s π := by
  rcases stepCoerce_ok_inv p flag s s' h with ⟨_, rfl⟩ | ⟨_, hset⟩
  · rfl
  · exact getOptPath_setPath_diverge p π hd s _ s' hset

theorem stepCoerce_stable (p : List Str) (flag : Bool) (s s' : JVal) (hρ : p ≠ [])
    (h : stepCoerce p flag s = .ok s') : stepCoerce p flag s' = .ok s' := by
  rcases stepCoerce_ok_inv p flag s s' h with ⟨hg, rfl⟩ | ⟨hg, hset⟩
  · exact h
  · rw [stepCoerce_fix_iff p flag s' hρ]
    right
    exact ⟨_, getOptPath_setPath_self p s _ s' hg hset⟩

theorem stepStreet_ok_inv (s s' : JVal) (h : stepStreet s = .ok s') :
    (streetByLen (filteredBoard s).length = none ∧ s' = s) ∨
    (∃ st, streetByLen (filteredBoard s).length = some st ∧ jsNonNullish s = true ∧
      ((jsTruthy (getFieldD s kTable) = false ∧ s' = s) ∨
       (jsTruthy (getFieldD s kTable) = true ∧
         setPath s [kTable, kStreet] (.str st) = .ok s'))) := by
  unfold stepStreet at h
  split at h
  next hm => exact Or.inl ⟨hm, (Except.ok.inj h).symm⟩
  next st hm =>
    split at h
    next e hg => exact absurd h (by simp)
    next t hg =>
      have hs : jsNonNullish s = true := by
        cases s <;> simp_all [getField, jsNonNullish]
      have ht : t = getFieldD s kTable := by
        cases s <;> simp_all [getField]
      subst ht
      by_cases htr : jsTruthy (getFieldD s kTable) = true
      · rw [if_pos htr] at h
        exact Or.inr ⟨st, hm, hs, Or.inr ⟨htr, h⟩⟩
      · rw [if_neg htr] at h
        refine Or.inr ⟨st, hm, hs, Or.inl ⟨?_, (Except.ok.inj h).symm⟩⟩
        cases hv : jsTruthy (getFieldD s kTable)
        · rfl
        · exact absurd hv htr

theorem stepStreet_preserve (s s' : JVal) (π : List Str)
    (h : stepStreet s = .ok s') (hd : divergeB π [kTable, kStreet] = true) :
    getOptPath s' π = getOptPath s π := by
  rcases stepStreet_ok_inv s s' h with ⟨_, rfl⟩ | ⟨st, _, _, ⟨_, rfl⟩ | ⟨_, hset⟩⟩
  · rfl
  · rfl
  · exact getOptPath_setPath_diverge [kTable, kStreet] π hd s _ s' hset

theorem stepStreet_stable (s s' : JVal) (h : stepStreet s = .ok s') :
    stepStreet s' = .ok s' := by
  rcases stepStreet_ok_inv s s' h with ⟨hm, rfl⟩ | ⟨st, hm, hs, hrest⟩
  · exact h
  rcases hrest with ⟨htr, rfl⟩ | ⟨htr, hset⟩
  · exact h
  · have hb : getOptPath s' [kTable, kBoard] = getOptPath s [kTable, kBoard] :=
      getOptPath_setPath_diverge [kTable, kStreet] [kTable, kBoard] (by decide) s _ s' hset
    have hfb : filteredBoard s' = filteredBoard s := by
      unfold filteredBoard
      rw [hb]
    rcases setPath_cons_inv s kTable kStreet [] (.str st) s' hset with ⟨fs, tt', hfs, hsub, hs'⟩
    have hsub' : setField (getFieldD s kTable) kStreet (.str st) = .ok tt' := hsub
    have htt' : getFieldD s' kTable = tt' := by
      rw [hs']
      simp [getFieldD, lookupF_setFields_self]
    have htr' : jsTruthy (getFieldD s' kTable) = true := by
      rw [htt']
      rcases setField_inv _ _ _ _ hsub' with ⟨gs, hgs, htt⟩ | ⟨xs, hxs, htt⟩
      · rw [htt]
        rfl
      · rw [htt]
        exact htr
    have hnn' : jsNonNullish s' = true := by rw [hs']; rfl
    have hgoal : stepStreet s' = (match getField s' kTable with
        | .error e => Except.error e
        | .ok t => if jsTruthy t then setPath s' [kTable, kStreet] (.str st)
            else Except.ok s') := by
      unfold stepStreet
      rw [hfb, hm]
    rw [hgoal, getField_of_nonNullish s' kTable hnn']
    show (if jsTruthy (getFieldD s' kTable) then setPath s' [kTable, kStreet] (.str st)
      else Except.ok s') = Except.ok s'
    rw [if_pos htr']
    exact setPath_idem _ s _ s' hset

theorem stepHole_ok_inv (s s' : JVal) (h : stepHole s = .ok s') :
    (isArrV (getOptPath s [kHero, kHole]) = true ∧ s' = s) ∨
    (isArrV (getOptPath s [kHero, kHole]) = false ∧
      setPath s [kHero, kHole] (.arr []) = .ok s') := by
  unfold stepHole at h
  split at h
  next xs hm => exact Or.inl ⟨by rw [hm]; rfl, (Except.ok.inj h).symm⟩
  next hne =>
    right
    refine ⟨?_, h⟩
    cases hv : getOptPath s [kHero, kHole] <;> first
      | rfl
      | exact absurd hv (by intro hx; exact hne _ hx)

theorem stepHole_preserve (s s' : JVal) (π : List Str)
    (h : stepHole s = .ok s') (hd : divergeB π [kHero, kHole] = true) :
    getOptPath s' π = getOptPath s π := by
  rcases stepHole_ok_inv s s' h with ⟨_, rfl⟩ | ⟨_, hset⟩
  · rfl
  · exact getOptPath_setPath_diverge [kHero, kHole] π hd s _ s' hset

theorem stepHole_stable (s s' : JVal) (h : stepHole s = .ok s') :
    stepHole s' = .ok s' := by
  rcases stepHole_ok_inv s s' h with ⟨_, rfl⟩ | ⟨_, hset⟩
  · exact h
  · show stepHole s' = .ok s'
    unfold stepHole
    split
    next xs hm => rfl
    next hne => exact setPath_idem _ s _ s' hset

/-- A state fixed by `stepHole` either has an array `hero.hole`, or its
`hero` is itself an array (so the assignment was an inert expando write). -/
theorem stepHole_fix_inv (t : JVal) (h : stepHole t = .ok t) :
    isArrV (getOptPath t [kHero, kHole]) = true ∨
    (∃ fs xs, t = .obj fs ∧ getFieldD t kHero = .arr xs) := by
  rcases stepHole_ok_inv t t h with ⟨ha, _⟩ | ⟨ha, hset⟩
  · exact Or.inl ha
  · rcases setPath_cons_inv t kHero kHole [] (.arr []) t hset with ⟨fs, tt', hfs, hsub, ht'⟩
    have hfseq : setFields fs kHero tt' = fs := by
      rw [hfs] at ht'
      exact (JVal.obj.inj ht').symm
    have hlk : lookupF fs kHero = some tt' := setFields_eq_self _ _ _ hfseq
    have hgd : getFieldD t kHero = tt' := by
      rw [hfs]
      simp [getFieldD, hlk]
    have hsub' : setField (getFieldD t kHero) kHole (.arr []) = .ok tt' := hsub
    rcases setField_inv _ _ _ _ hsub' with ⟨gs, hgs, htt⟩ | ⟨xs, hxs, htt⟩
    · exfalso
      have hglk : setFields gs kHole (.arr []) = gs := by
        have : tt' = getFieldD t kHero := hgd.symm
        rw [hgs] at hgd
        rw [htt] at hgd
        exact (JVal.obj.inj hgd.symm)
      have : lookupF gs kHole = some (.arr []) := setFields_eq_self _ _ _ hglk
      have hfin : getOptPath t [kHero, kHole] = .arr [] := by
        show getOptPath (getOptF (getOptF t kHero) kHole) [] = _
        have h₁ : getOptF t kHero = getFieldD t kHero := by
          rw [hfs]; rfl
        rw [show getOptPath (getOptF (getOptF t kHero) kHole) [] =
          getOptF (getOptF t kHero) kHole from rfl, h₁, hgs]
        show getFieldD (JVal.obj gs) kHole = _
        simp [getFieldD, this]
      rw [hfin] at ha
      simp [isArrV] at ha
    · exact Or.inr ⟨fs, xs, hfs, hxs⟩

theorem stepPlayers_ok_inv (s s' : JVal) (h : stepPlayers s = .ok s') :
    (isArrV (getOptF s kPlayers) = false ∧ s' = s) ∨
    (∃ ps ps' fs, s = .obj fs ∧ getOptF s kPlayers = .arr ps ∧ mapCorrect ps = .ok ps' ∧
      s' = .obj (setFields fs kPlayers (.arr ps'))) := by
  unfold stepPlayers at h
  split at h
  next ps hm =>
    split at h
    next e hmc => exact absurd h (by simp)
    next ps' hmc =>
      rcases setField_inv s kPlayers (.arr ps') s' h with ⟨fs, rfl, rfl⟩ | ⟨xs, rfl, rfl⟩
      · exact Or.inr ⟨ps, ps', fs, rfl, hm, hmc, rfl⟩
      · exact absurd hm (by simp [getOptF, getFieldD])
  next hne =>
    refine Or.inl ⟨?_, (Except.ok.inj h).symm⟩
    cases hv : getOptF s kPlayers <;> first
      | rfl
      | exact absurd hv (fun hv' => hne _ hv')

theorem stepPlayers_preserve (s s' : JVal) (π : List Str)
    (h : stepPlayers s = .ok s') (hd : divergeB π [kPlayers] = true) :
    getOptPath s' π = getOptPath s π := by
  rcases stepPlayers_ok_inv s s' h with ⟨_, rfl⟩ | ⟨ps, ps', fs, rfl, hm, hmc, rfl⟩
  · rfl
  · rcases π with _ | ⟨k₀, π'⟩
    · simp [divergeB] at hd
    · have hk : k₀ ≠ kPlayers := by
        by_cases hk : k₀ = kPlayers
        · subst hk
          rcases π' with _ | _ <;> simp [divergeB] at hd
        · exact hk
      show getOptPath (getOptF (JVal.obj (setFields fs kPlayers (.arr ps'))) k₀) π' =
        getOptPath (getOptF (JVal.obj fs) k₀) π'
      rw [getOptF_obj, getOptF_obj, lookupF_setFields_ne fs kPlayers _ k₀ (fun e => hk e.symm)]

/-- The value stored at each of the five rewritten player keys. -/
theorem lookup_cpf_seat (p : JVal) :
    lookupF (correctedPlayerFields p) kSeat =
      some (if jsNonNullish (getFieldD p kSeat) then .num (jsToNumber (getFieldD p kSeat))
        else .null) := by
  unfold correctedPlayerFields
  rw [lookupF_setFields_ne _ kInHand _ kSeat (by decide),
    lookupF_setFields_ne _ kPosition _ kSeat (by decide),
    lookupF_setFields_ne _ kCommitted _ kSeat (by decide),
    lookupF_setFields_ne _ kStack _ kSeat (by decide),
    lookupF_setFields_self]

theorem lookup_cpf_stack (p : JVal) :
    lookupF (correctedPlayerFields p) kStack =
      some (if jsNonNullish (getFieldD p kStack) then .num (jsToNumber (getFieldD p kStack))
        else .null) := by
  unfold correctedPlayerFields
  rw [lookupF_setFields_ne _ kInHand _ kStack (by decide),
    lookupF_setFields_ne _ kPosition _ kStack (by decide),
    lookupF_setFields_ne _ kCommitted _ kStack (by decide),
    lookupF_setFields_self]

theorem lookup_cpf_committed (p : JVal) :
    lookupF (correctedPlayerFields p) kCommitted =
      some (if jsNonNullish (getFieldD p kCommitted)
        then .num (jsToNumber (getFieldD p kCommitted)) else .null) := by
  unfold correctedPlayerFields
  rw [lookupF_setFields_ne _ kInHand _ kCommitted (by decide),
    lookupF_setFields_ne _ kPosition _ kCommitted (by decide),
    lookupF_setFields_self]

theorem lookup_cpf_position (p : JVal) :
    lookupF (correctedPlayerFields p) kPosition =
      some (if jsNonNullish (getFieldD p kPosition) then getFieldD p kPosition else .null) := by
  unfold correctedPlayerFields
  rw [lookupF_setFields_ne _ kInHand _ kPosition (by decide), lookupF_setFields_self]

theorem lookup_cpf_inHand (p : JVal) :
    lookupF (correctedPlayerFields p) kInHand =
      some (.bool (jsTruthy (getFieldD p kInHand))) := by
  unfold correctedPlayerFields
  rw [lookupF_setFields_self]

/-- A numeric-or-null normalized value re-normalizes to itself. -/
theorem renorm_fix (v : JVal) :
    (if jsNonNullish (if jsNonNullish v then JVal.num (jsToNumber v) else JVal.null)
      then JVal.num (jsToNumber
        (if jsNonNullish v then JVal.num (jsToNumber v) else JVal.null))
      else JVal.null) = (if jsNonNullish v then JVal.num (jsToNumber v) else JVal.null) := by
  by_cases hv : jsNonNullish v = true
  · rw [if_pos hv, if_pos (by rfl)]
    rfl
  · have hv' : jsNonNullish v = false := by
      cases h : jsNonNullish v
      · rfl
      · exact absurd h hv
    have h1 : (if jsNonNullish v then JVal.num (jsToNumber v) else JVal.null) = JVal.null := by
      rw [hv']
      rfl
    rw [h1]
    rfl

theorem cpf_idem (p : JVal) :
    correctedPlayerFields (.obj (correctedPlayerFields p)) = correctedPlayerFields p := by
  have hseat := lookup_cpf_seat p
  have hstack := lookup_cpf_stack p
  have hcomm := lookup_cpf_committed p
  have hpos := lookup_cpf_position p
  have hin := lookup_cpf_inHand p
  conv_lhs => rw [correctedPlayerFields]
  rw [show spreadFields (.obj (correctedPlayerFields p)) = correctedPlayerFields p from rfl]
  rw [show getFieldD (.obj (correctedPlayerFields p)) kSeat =
    (lookupF (correctedPlayerFields p) kSeat).getD .undefined from rfl, hseat]
  rw [show getFieldD (.obj (correctedPlayerFields p)) kStack =
    (lookupF (correctedPlayerFields p) kStack).getD .undefined from rfl, hstack]
  rw [show getFieldD (.obj (correctedPlayerFields p)) kCommitted =
    (lookupF (correctedPlayerFields p) kCommitted).getD .undefined from rfl, hcomm]
  rw [show getFieldD (.obj (correctedPlayerFields p)) kPosition =
    (lookupF (correctedPlayerFields p) kPosition).getD .undefined from rfl, hpos]
  rw [show getFieldD (.obj (correctedPlayerFields p)) kInHand =
    (lookupF (correctedPlayerFields p) kInHand).getD .undefined from rfl, hin]
  simp only [Option.getD_some]
  rw [renorm_fix (getFieldD p kSeat)]
  rw [setFields_self _ kSeat _ hseat]
  rw [renorm_fix (getFieldD p kStack)]
  rw [setFields_self _ kStack _ hstack]
  rw [renorm_fix (getFieldD p kCommitted)]
  rw [setFields_self _ kCommitted _ hcomm]
  rw [show (if jsNonNullish (if jsNonNullish (getFieldD p kPosition)
      then getFieldD p kPosition else JVal.null)
      then (if jsNonNullish (getFieldD p kPosition) then getFieldD p kPosition else JVal.null)
      else JVal.null) =
      (if jsNonNullish (getFieldD p kPosition) then getFieldD p kPosition else JVal.null) from ?_]
  rw [setFields_self _ kPosition _ hpos]
  rw [show JVal.bool (jsTruthy (JVal.bool (jsTruthy (getFieldD p kInHand)))) =
    JVal.bool (jsTruthy (getFieldD p kInHand)) from rfl]
  rw [setFields_self _ kInHand _ hin]
  by_cases hv : jsNonNullish (getFieldD p kPosition) = true
  · rw [if_pos hv, if_pos hv]
  · have hv' : jsNonNullish (getFieldD p kPosition) = false := by
      cases h : jsNonNullish (getFieldD p kPosition)
      · rfl
      · exact absurd h hv
    have h1 : (if jsNonNullish (getFieldD p kPosition) then getFieldD p kPosition
        else JVal.null) = JVal.null := by
      rw [hv']
      rfl
    rw [h1]
    rfl

theorem correctPlayer_corrected (p q : JVal) (h : correctPlayer p = .ok q) :
    correctPlayer q = .ok q := by
  have hq : q = .obj (correctedPlayerFields p) := by
    cases p <;> simp [correctPlayer] at h <;> exact h.symm
  subst hq
  show Except.ok (JVal.obj (correctedPlayerFields (.obj (correctedPlayerFields p)))) = _
  rw [cpf_idem p]

theorem mapCorrect_corrected (ps qs : List JVal) (h : mapCorrect ps = .ok qs) :
    mapCorrect qs = .ok qs := by
  induction ps generalizing qs with
  | nil =>
    have : qs = [] := by simpa [mapCorrect] using h.symm
    subst this
    rfl
  | cons p ps ih =>
    unfold mapCorrect at h
    split at h
    next e hc => exact absurd h (by simp)
    next q hc =>
      split at h
      next e hmc => exact absurd h (by simp)
      next qs' hmc =>
        have hqs : qs = q :: qs' := (Except.ok.inj h).symm
        subst hqs
        show mapCorrect (q :: qs') = _
        unfold mapCorrect
        rw [correctPlayer_corrected p q hc, ih qs' hmc]

theorem stepPlayers_stable (s s' : JVal) (h : stepPlayers s = .ok s') :
    stepPlayers s' = .ok s' := by
  rcases stepPlayers_ok_inv s s' h with ⟨_, rfl⟩ | ⟨ps, ps', fs, rfl, hm, hmc, hs'⟩
  · exact h
  · have h1 : getOptF s' kPlayers = .arr ps' := by
      rw [hs', getOptF_obj, lookupF_setFields_self]
      rfl
    have hgoal : stepPlayers s' = (match mapCorrect ps' with
        | .error e => Except.error e
        | .ok qs => setField s' kPlayers (.arr qs)) := by
      unfold stepPlayers
      rw [h1]
    rw [hgoal, mapCorrect_corrected ps ps' hmc]
    show setField s' kPlayers (.arr ps') = .ok s'
    rw [hs', setField_obj, setFields_setFields]

/-! ### Cross-step preservation -/

/-- A step is stable when re-running it on its own output is the identity. -/
def StableStep (σ : Step) : Prop := ∀ t t', σ t = .ok t' → σ t' = .ok t'

/-- `τ` keeps `σ`-fixed states fixed. -/
def PresStep (σ τ : Step) : Prop :=
  ∀ t t', σ t = .ok t → τ t = .ok t' → σ t' = .ok t'

/-- What a self-write `v.k₁.k₂ = v` that returns the unchanged object says:
either the path stored exactly `v`, or the intermediate node is an array
(inert write). -/
theorem setPath2_fix_inv (t : JVal) (k₁ k₂ : Str) (v : JVal)
    (h : setPath t [k₁, k₂] v = .ok t) :
    (getOptPath t [k₁, k₂] = v) ∨ (∃ xs, getFieldD t k₁ = .arr xs) := by
  rcases setPath_cons_inv t k₁ k₂ [] v t h with ⟨fs, tt', hfs, hsub, ht'⟩
  have hfseq : setFields fs k₁ tt' = fs := by
    rw [hfs] at ht'
    exact (JVal.obj.inj ht').symm
  have hlk : lookupF fs k₁ = some tt' := setFields_eq_self _ _ _ hfseq
  have hgd : getFieldD t k₁ = tt' := by
    rw [hfs]
    simp [getFieldD, hlk]
  have hsub' : setField (getFieldD t k₁) k₂ v = .ok tt' := hsub
  rcases setField_inv _ _ _ _ hsub' with ⟨gs, hgs, htt⟩ | ⟨xs, hxs, _⟩
  · left
    have hto : tt' = .obj gs := hgd ▸ hgs
    have hgseq : setFields gs k₂ v = gs := by
      rw [hto] at htt
      exact (JVal.obj.inj htt.symm)
    have hlk₂ : lookupF gs k₂ = some v := setFields_eq_self _ _ _ hgseq
    show getOptPath (getOptF (getOptF t k₁) k₂) [] = v
    have h₁ : getOptF t k₁ = getFieldD t k₁ := by
      rw [hfs]
      rfl
    rw [show getOptPath (getOptF (getOptF t k₁) k₂) [] =
      getOptF (getOptF t k₁) k₂ from rfl, h₁, hgd, hto]
    show getFieldD (JVal.obj gs) k₂ = v
    simp [getFieldD, hlk₂]
  · exact Or.inr ⟨xs, hgd ▸ hxs⟩

/-- A successful nested write either leaves a given top-level field
untouched, or that field is an object both before and after. -/
theorem setPath_node_rel (t t' : JVal) (k : Str) (ρ : List Str) (v : JVal) (hρ : ρ ≠ [])
    (h : setPath t (k :: ρ) v = .ok t') (k₀ : Str) :
    getOptF t' k₀ = getOptF t k₀ ∨
    (isObjV (getOptF t' k₀) = true ∧ isObjV (getOptF t k₀) = true) := by
  by_cases hk : k₀ = k
  · subst hk
    rcases ρ with _ | ⟨k', ks⟩
    · exact absurd rfl hρ
    · rcases setPath_cons_inv t k₀ k' ks v t' h with ⟨fs, tt', hfs, hsub, ht'⟩
      have hg' : getOptF t' k₀ = tt' := by
        rw [ht', getOptF_obj, lookupF_setFields_self]
        rfl
      have hg : getOptF t k₀ = getFieldD t k₀ := by
        rw [hfs]
        rfl
      rcases setPath_result_kind (k' :: ks) (getFieldD t k₀) v tt' (by simp) hsub with
        heq | ⟨⟨gs, hgs⟩, ⟨gs', hgs'⟩⟩
      · exact Or.inl (by rw [hg', hg, heq])
      · refine Or.inr ⟨?_, ?_⟩
        · rw [hg', hgs']
          rfl
        · rw [hg, hgs]
          rfl
  · exact Or.inl (getOptF_setPath_ne t k ρ v t' h k₀ hk)

/-- Effect of one coercion step on root shape. -/
theorem stepCoerce_root (p : List Str) (f : Bool) (t t' : JVal) (hp : p ≠ [])
    (h : stepCoerce p f t = .ok t') :
    t' = t ∨ ((∃ fs, t = .obj fs) ∧ (∃ fs', t' = .obj fs')) := by
  rcases stepCoerce_ok_inv p f t t' h with ⟨_, rfl⟩ | ⟨_, hset⟩
  · exact Or.inl rfl
  · exact setPath_result_kind p t _ t' hp hset

theorem stepHole_root (t t' : JVal) (h : stepHole t = .ok t') :
    t' = t ∨ ((∃ fs, t = .obj fs) ∧ (∃ fs', t' = .obj fs')) := by
  rcases stepHole_ok_inv t t' h with ⟨_, rfl⟩ | ⟨_, hset⟩
  · exact Or.inl rfl
  · exact setPath_result_kind _ t _ t' (by simp) hset

theorem stepPlayers_root (t t' : JVal) (h : stepPlayers t = .ok t') :
    t' = t ∨ ((∃ fs, t = .obj fs) ∧ (∃ fs', t' = .obj fs')) := by
  rcases stepPlayers_ok_inv t t' h with ⟨_, rfl⟩ | ⟨ps, ps', fs, rfl, _, _, rfl⟩
  · exact Or.inl rfl
  · exact Or.inr ⟨⟨fs, rfl⟩, ⟨_, rfl⟩⟩

/-- Effect of one coercion step on a top-level node. -/
theorem stepCoerce_node (k : Str) (ρ : List Str) (f : Bool) (t t' : JVal) (hρ : ρ ≠ [])
    (h : stepCoerce (k :: ρ) f t = .ok t') (k₀ : Str) :
    getOptF t' k₀ = getOptF t k₀ ∨
    (isObjV (getOptF t' k₀) = true ∧ isObjV (getOptF t k₀) = true) := by
  rcases stepCoerce_ok_inv (k :: ρ) f t t' h with ⟨_, rfl⟩ | ⟨_, hset⟩
  · exact Or.inl rfl
  · exact setPath_node_rel t t' k ρ _ hρ hset k₀

theorem stepHole_node (t t' : JVal) (h : stepHole t = .ok t') (k₀ : Str) :
    getOptF t' k₀ = getOptF t k₀ ∨
    (isObjV (getOptF t' k₀) = true ∧ isObjV (getOptF t k₀) = true) := by
  rcases stepHole_ok_inv t t' h with ⟨_, rfl⟩ | ⟨_, hset⟩
  · exact Or.inl rfl
  · exact setPath_node_rel t t' kHero [kHole] _ (by simp) hset k₀

theorem stepPlayers_node (t t' : JVal) (h : stepPlayers t = .ok t') (k₀ : Str)
    (hk : k₀ ≠ kPlayers) : getOptF t' k₀ = getOptF t k₀ := by
  rcases stepPlayers_ok_inv t t' h with ⟨_, rfl⟩ | ⟨ps, ps', fs, rfl, _, _, rfl⟩
  · rfl
  · rw [getOptF_obj, getOptF_obj, lookupF_setFields_ne fs kPlayers _ k₀ (fun e => hk e.symm)]

/-- A coercion step stays fixed under any step that preserves its path. -/
theorem presCoerce (p : List Str) (f : Bool) (hp : p ≠ []) (τ : Step)
    (hτ : ∀ t t', τ t = .ok t' → getOptPath t' p = getOptPath t p) :
    PresStep (stepCoerce p f) τ := by
  intro t t' hfix hτok
  rw [stepCoerce_fix_iff p f t' hp, hτ t t' hτok]
  exact (stepCoerce_fix_iff p f t hp).mp hfix

/-- The street step stays fixed under any later step: such steps preserve the
board and street paths and can only rewrite inside a `table` that is an
object. -/
theorem presStreet (τ : Step)
    (hb : ∀ t t', τ t = .ok t' →
      getOptPath t' [kTable, kBoard] = getOptPath t [kTable, kBoard])
    (hst : ∀ t t', τ t = .ok t' →
      getOptPath t' [kTable, kStreet] = getOptPath t [kTable, kStreet])
    (hnode : ∀ t t', τ t = .ok t' →
      getOptF t' kTable = getOptF t kTable ∨
      (isObjV (getOptF t' kTable) = true ∧ isObjV (getOptF t kTable) = true))
    (hroot : ∀ t t', τ t = .ok t' →
      t' = t ∨ ((∃ fs, t = .obj fs) ∧ (∃ fs', t' = .obj fs'))) :
    PresStep stepStreet τ := by
  intro t t' hfix hτok
  have hfb : filteredBoard t' = filteredBoard t := by
    unfold filteredBoard
    rw [hb t t' hτok]
  rcases hroot t t' hτok with rfl | ⟨⟨fs, hfs⟩, ⟨fs', hfs'⟩⟩
  · exact hfix
  rcases stepStreet_ok_inv t t hfix with ⟨hm, _⟩ | ⟨st, hm, hs, hrest⟩
  · have hgoal : stepStreet t' = Except.ok t' := by
      unfold stepStreet
      rw [hfb, hm]
    exact hgoal
  · have hnn' : jsNonNullish t' = true := by
      rw [hfs']
      rfl
    have hofd : getOptF t kTable = getFieldD t kTable := getOptF_of_nonNullish t kTable hs
    have hofd' : getOptF t' kTable = getFieldD t' kTable :=
      getOptF_of_nonNullish t' kTable hnn'
    rcases hrest with ⟨htr, _⟩ | ⟨htr, hset⟩
    · have htr' : jsTruthy (getFieldD t' kTable) = false := by
        rcases hnode t t' hτok with he | ⟨ho', ho⟩
        · rw [← hofd', he, hofd]
          exact htr
        · exfalso
          rw [hofd] at ho
          cases hv : getFieldD t kTable <;> rw [hv] at ho htr
          all_goals first
            | exact Bool.noConfusion ho
            | exact Bool.noConfusion htr
      have hgoal : stepStreet t' = (match getField t' kTable with
          | .error e => Except.error e
          | .ok u => if jsTruthy u then setPath t' [kTable, kStreet] (.str st)
              else Except.ok t') := by
        unfold stepStreet
        rw [hfb, hm]
      rw [hgoal, getField_of_nonNullish t' kTable hnn']
      show (if jsTruthy (getFieldD t' kTable) then setPath t' [kTable, kStreet] (.str st)
        else Except.ok t') = Except.ok t'
      rw [htr']
      show Except.ok t' = Except.ok t'
      rfl
    · have htr' : jsTruthy (getFieldD t' kTable) = true := by
        rcases hnode t t' hτok with he | ⟨ho', ho⟩
        · rw [← hofd', he, hofd]
          exact htr
        · rw [hofd'] at ho'
          cases hv : getFieldD t' kTable <;> rw [hv] at ho'
          all_goals first
            | rfl
            | exact Bool.noConfusion ho'
      have hfin : setPath t' [kTable, kStreet] (.str st) = .ok t' := by
        rcases setPath2_fix_inv t kTable kStreet (.str st) hset with hval | ⟨xs, harr⟩
        · have hval' : getOptPath t' [kTable, kStreet] = .str st := by
            rw [hst t t' hτok, hval]
          exact setPath_same_value [kTable, kStreet] t' (.str st) (by simp) hval' rfl
        · have harr' : ∃ ys, getFieldD t' kTable = .arr ys := by
            rcases hnode t t' hτok with he | ⟨ho', ho⟩
            · exact ⟨xs, by rw [← hofd', he, hofd, harr]⟩
            · exfalso
              rw [hofd, harr] at ho
              simp [isObjV] at ho
          obtain ⟨ys, hys⟩ := harr'
          rw [hfs']
          exact setPath2_self_arr fs' kTable kStreet ys (.str st) (by rw [← hfs']; exact hys)
      have hgoal : stepStreet t' = (match getField t' kTable with
          | .error e => Except.error e
          | .ok u => if jsTruthy u then setPath t' [kTable, kStreet] (.str st)
              else Except.ok t') := by
        unfold stepStreet
        rw [hfb, hm]
      rw [hgoal, getField_of_nonNullish t' kTable hnn']
      show (if jsTruthy (getFieldD t' kTable) then setPath t' [kTable, kStreet] (.str st)
        else Except.ok t') = Except.ok t'
      rw [htr']
      show setPath t' [kTable, kStreet] (.str st) = Except.ok t'
      exact hfin

/-- The hole step stays fixed under the players step. -/
theorem presHolePlayers : PresStep stepHole stepPlayers := by
  intro t t' hfix hpl
  rcases stepHole_fix_inv t hfix with harr | ⟨fs, xs, hfs, hhero⟩
  · have hpath : getOptPath t' [kHero, kHole] = getOptPath t [kHero, kHole] :=
      stepPlayers_preserve t t' [kHero, kHole] hpl (by decide)
    show stepHole t' = .ok t'
    unfold stepHole
    rw [hpath]
    cases hv : getOptPath t [kHero, kHole] <;> rw [hv] at harr <;> first
      | rfl
      | simp [isArrV] at harr
  · rcases stepPlayers_ok_inv t t' hpl with ⟨_, rfl⟩ | ⟨ps, ps', fs₂, hfs₂, hm, hmc, ht'⟩
    · exact hfix
    · have hfs₂' : fs₂ = fs := by
        rw [hfs] at hfs₂
        exact (JVal.obj.inj hfs₂).symm
      subst hfs₂'
      have hhero' : getFieldD t' kHero = .arr xs := by
        rw [ht', show getFieldD (JVal.obj (setFields fs₂ kPlayers (.arr ps'))) kHero =
          (lookupF (setFields fs₂ kPlayers (.arr ps')) kHero).getD .undefined from rfl,
          lookupF_setFields_ne fs₂ kPlayers _ kHero (by decide)]
        rw [hfs] at hhero
        exact hhero
      have hv : getOptPath t' [kHero, kHole] = JVal.undefined := by
        show getOptF (getOptF t' kHero) kHole = _
        have h₁ : getOptF t' kHero = getFieldD t' kHero := by
          rw [ht']
          rfl
        rw [h₁, hhero']
        rfl
      show stepHole t' = .ok t'
      unfold stepHole
      rw [hv]
      show setPath t' [kHero, kHole] (.arr []) = .ok t'
      rw [ht']
      exact setPath2_self_arr _ kHero kHole xs (.arr []) (by rw [← ht']; exact hhero')

/-! ### Replay framework: running the corrector on its own output -/

/-- Scanning the step list at state `r`: every step is the identity on `r`
until (possibly) one that throws, after which the remaining steps are not
reached. -/
inductive ReplayFixed : List Step → JVal → Prop where
  | nil (r : JVal) : ReplayFixed [] r
  | consOk (σ : Step) (L : List Step) (r : JVal) :
      σ r = .ok r → ReplayFixed L r → ReplayFixed (σ :: L) r
  | consErr (σ : Step) (L : List Step) (r : JVal) (e : Unit) :
      σ r = .error e → ReplayFixed (σ :: L) r

theorem runBody_of_replayFixed (L : List Step) (r : JVal) (h : ReplayFixed L r) :
    runBody L r = r := by
  induction h with
  | nil r => rfl
  | consOk σ L r hok _ ih =>
    show runBody (σ :: L) r = r
    unfold runBody
    rw [hok]
    exact ih
  | consErr σ L r e herr =>
    show runBody (σ :: L) r = r
    unfold runBody
    rw [herr]

theorem runBody_key (L : List Step) (A : List Step) (s : JVal)
    (hA : ∀ σ ∈ A, σ s = .ok s)
    (hPresA : ∀ σ ∈ A, ∀ τ ∈ L, PresStep σ τ)
    (hStable : ∀ τ ∈ L, StableStep τ)
    (hPair : L.Pairwise PresStep) :
    (∀ σ ∈ A, σ (runBody L s) = .ok (runBody L s)) ∧ ReplayFixed L (runBody L s) := by
  induction L generalizing A s with
  | nil => exact ⟨hA, .nil s⟩
  | cons τ L' ih =>
    cases hτ : τ s with
    | error e =>
      have hrb : runBody (τ :: L') s = s := by
        unfold runBody
        rw [hτ]
      rw [hrb]
      exact ⟨hA, .consErr τ L' s e hτ⟩
    | ok s' =>
      have hrb : runBody (τ :: L') s = runBody L' s' := by
        rw [show runBody (τ :: L') s = (match τ s with
          | .ok u => runBody L' u
          | .error _ => s) from rfl, hτ]
      rw [hrb]
      have hA' : ∀ σ ∈ A ++ [τ], σ s' = .ok s' := by
        intro σ hσ
        rcases List.mem_append.mp hσ with hσA | hστ
        · exact hPresA σ hσA τ (by simp) s s' (hA σ hσA) hτ
        · have heq : σ = τ := by simpa using hστ
          subst heq
          exact hStable σ (by simp) s s' hτ
      have hPresA' : ∀ σ ∈ A ++ [τ], ∀ υ ∈ L', PresStep σ υ := by
        intro σ hσ υ hυ
        rcases List.mem_append.mp hσ with hσA | hστ
        · exact hPresA σ hσA υ (by simp [hυ])
        · have heq : σ = τ := by simpa using hστ
          subst heq
          exact (List.pairwise_cons.mp hPair).1 υ hυ
      have hStable' : ∀ υ ∈ L', StableStep υ := fun υ hυ => hStable υ (by simp [hυ])
      obtain ⟨hAok, hrep⟩ :=
        ih (A ++ [τ]) s' hA' hPresA' hStable' (List.pairwise_cons.mp hPair).2
      refine ⟨fun σ hσ => hAok σ (List.mem_append.mpr (Or.inl hσ)), ?_⟩
      exact .consOk τ L' _ (hAok τ (List.mem_append.mpr (Or.inr (by simp)))) hrep

theorem runBody_idem (L : List Step) (s : JVal)
    (hStable : ∀ τ ∈ L, StableStep τ) (hPair : L.Pairwise PresStep) :
    runBody L (runBody L s) = runBody L s := by
  obtain ⟨_, hrep⟩ := runBody_key L [] s (by simp) (by simp) hStable hPair
  exact runBody_of_replayFixed L _ hrep

/-! ### Instantiation for the corrector's step list -/

theorem presStreetCoerce (k : Str) (ρ : List Str) (f : Bool) (hρ : ρ ≠ [])
    (hb : divergeB [kTable, kBoard] (k :: ρ) = true)
    (hst : divergeB [kTable, kStreet] (k :: ρ) = true) :
    PresStep stepStreet (stepCoerce (k :: ρ) f) :=
  presStreet _
    (fun t t' h => stepCoerce_preserve (k :: ρ) f t t' _ h hb)
    (fun t t' h => stepCoerce_preserve (k :: ρ) f t t' _ h hst)
    (fun t t' h => stepCoerce_node k ρ f t t' hρ h kTable)
    (fun t t' h => stepCoerce_root (k :: ρ) f t t' (by simp) h)

theorem presStreetHole : PresStep stepStreet stepHole :=
  presStreet _
    (fun t t' h => stepHole_preserve t t' _ h (by decide))
    (fun t t' h => stepHole_preserve t t' _ h (by decide))
    (fun t t' h => stepHole_node t t' h kTable)
    (fun t t' h => stepHole_root t t' h)

theorem presStreetPlayers : PresStep stepStreet stepPlayers :=
  presStreet _
    (fun t t' h => stepPlayers_preserve t t' _ h (by decide))
    (fun t t' h => stepPlayers_preserve t t' _ h (by decide))
    (fun t t' h => Or.inl (stepPlayers_node t t' h kTable (by decide)))
    (fun t t' h => stepPlayers_root t t' h)

theorem presCoerceCoerce (p p' : List Str) (f f' : Bool) (hp : p ≠ [])
    (hd : divergeB p p' = true) : PresStep (stepCoerce p f) (stepCoerce p' f') :=
  presCoerce p f hp _ (fun t t' h => stepCoerce_preserve p' f' t t' p h hd)

theorem presCoerceHole (p : List Str) (f : Bool) (hp : p ≠ [])
    (hd : divergeB p [kHero, kHole] = true) : PresStep (stepCoerce p f) stepHole :=
  presCoerce p f hp _ (fun t t' h => stepHole_preserve t t' p h hd)

theorem presCoercePlayers (p : List Str) (f : Bool) (hp : p ≠ [])
    (hd : divergeB p [kPlayers] = true) : PresStep (stepCoerce p f) stepPlayers :=
  presCoerce p f hp _ (fun t t' h => stepPlayers_preserve t t' p h hd)

theorem correctionSteps_stable : ∀ τ ∈ correctionSteps, StableStep τ := by
  intro τ hτ
  simp only [correctionSteps, List.mem_cons, List.not_mem_nil, or_false] at hτ
  rcases hτ with rfl | rfl | rfl | rfl | rfl | rfl | rfl | rfl | rfl | rfl
  · exact fun t t' h => stepStreet_stable t t' h
  · exact fun t t' h => stepCoerce_stable pPot false t t' (by decide) h
  · exact fun t t' h => stepCoerce_stable pMinRaise true t t' (by decide) h
  · exact fun t t' h => stepCoerce_stable pMaxBet true t t' (by decide) h
  · exact fun t t' h => stepCoerce_stable pSb false t t' (by decide) h
  · exact fun t t' h => stepCoerce_stable pBb false t t' (by decide) h
  · exact fun t t' h => stepCoerce_stable pHeroStack false t t' (by decide) h
  · exact fun t t' h => stepCoerce_stable pHeroCommitted true t t' (by decide) h
  · exact fun t t' h => stepHole_stable t t' h
  · exact fun t t' h => stepPlayers_stable t t' h

theorem correctionSteps_pairwise : correctionSteps.Pairwise PresStep := by
  unfold correctionSteps
  refine List.Pairwise.cons ?_ (List.Pairwise.cons ?_ (List.Pairwise.cons ?_
    (List.Pairwise.cons ?_ (List.Pairwise.cons ?_ (List.Pairwise.cons ?_
    (List.Pairwise.cons ?_ (List.Pairwise.cons ?_ (List.Pairwise.cons ?_
    (List.Pairwise.cons ?_ List.Pairwise.nil)))))))))
  · intro τ hτ
    simp only [List.mem_cons, List.not_mem_nil, or_false] at hτ
    rcases hτ with rfl | rfl | rfl | rfl | rfl | rfl | rfl | rfl | rfl
    · exact presStreetCoerce kTable [kPot] false (by simp) (by decide) (by decide)
    · exact presStreetCoerce kTable [kMinRaise] true (by simp) (by decide) (by decide)
    · exact presStreetCoerce kTable [kMaxBet] true (by simp) (by decide) (by decide)
    · exact presStreetCoerce kTable [kStakes, kSb] false (by simp) (by decide) (by decide)
    · exact presStreetCoerce kTable [kStakes, kBb] false (by simp) (by decide) (by decide)
    · exact presStreetCoerce kHero [kStack] false (by simp) (by decide) (by decide)
    · exact presStreetCoerce kHero [kCommitted] true (by simp) (by decide) (by decide)
    · exact presStreetHole
    · exact presStreetPlayers
  · intro τ hτ
    simp only [List.mem_cons, List.not_mem_nil, or_false] at hτ
    rcases hτ with rfl | rfl | rfl | rfl | rfl | rfl | rfl | rfl
    · exact presCoerceCoerce pPot pMinRaise false true (by decide) (by decide)
    · exact presCoerceCoerce pPot pMaxBet false true (by decide) (by decide)
    · exact presCoerceCoerce pPot pSb false false (by decide) (by decide)
    · exact presCoerceCoerce pPot pBb false false (by decide) (by decide)
    · exact presCoerceCoerce pPot pHeroStack false false (by decide) (by decide)
    · exact presCoerceCoerce pPot pHeroCommitted false true (by decide) (by decide)
    · exact presCoerceHole pPot false (by decide) (by decide)
    · exact presCoercePlayers pPot false (by decide) (by decide)
  · intro τ hτ
    simp only [List.mem_cons, List.not_mem_nil, or_false] at hτ
    rcases hτ with rfl | rfl | rfl | rfl | rfl | rfl | rfl
    · exact presCoerceCoerce pMinRaise pMaxBet true true (by decide) (by decide)
    · exact presCoerceCoerce pMinRaise pSb true false (by decide) (by decide)
    · exact presCoerceCoerce pMinRaise pBb true false (by decide) (by decide)
    · exact presCoerceCoerce pMinRaise pHeroStack true false (by decide) (by decide)
    · exact presCoerceCoerce pMinRaise pHeroCommitted true true (by decide) (by decide)
    · exact presCoerceHole pMinRaise true (by decide) (by decide)
    · exact presCoercePlayers pMinRaise true (by decide) (by decide)
  · intro τ hτ
    simp only [List.mem_cons, List.not_mem_nil, or_false] at hτ
    rcases hτ with rfl | rfl | rfl | rfl | rfl | rfl
    · exact presCoerceCoerce pMaxBet pSb true false (by decide) (by decide)
    · exact presCoerceCoerce pMaxBet pBb true false (by decide) (by decide)
    · exact presCoerceCoerce pMaxBet pHeroStack true false (by decide) (by decide)
    · exact presCoerceCoerce pMaxBet pHeroCommitted true true (by decide) (by decide)
    · exact presCoerceHole pMaxBet true (by decide) (by decide)
    · exact presCoercePlayers pMaxBet true (by decide) (by decide)
  · intro τ hτ
    simp only [List.mem_cons, List.not_mem_nil, or_false] at hτ
    rcases hτ with rfl | rfl | rfl | rfl | rfl
    · exact presCoerceCoerce pSb pBb false false (by decide) (by decide)
    · exact presCoerceCoerce pSb pHeroStack false false (by decide) (by decide)
    · exact presCoerceCoerce pSb pHeroCommitted false true (by decide) (by decide)
    · exact presCoerceHole pSb false (by decide) (by decide)
    · exact presCoercePlayers pSb false (by decide) (by decide)
  · intro τ hτ
    simp only [List.mem_cons, List.not_mem_nil, or_false] at hτ
    rcases hτ with rfl | rfl | rfl | rfl
    · exact presCoerceCoerce pBb pHeroStack false false (by decide) (by decide)
    · exact presCoerceCoerce pBb pHeroCommitted false true (by decide) (by decide)
    · exact presCoerceHole pBb false (by decide) (by decide)
    · exact presCoercePlayers pBb false (by decide) (by decide)
  · intro τ hτ
    simp only [List.mem_cons, List.not_mem_nil, or_false] at hτ
    rcases hτ with rfl | rfl | rfl
    · exact presCoerceCoerce pHeroStack pHeroCommitted false true (by decide) (by decide)
    · exact presCoerceHole pHeroStack false (by decide) (by decide)
    · exact presCoercePlayers pHeroStack false (by decide) (by decide)
  · intro τ hτ
    simp only [List.mem_cons, List.not_mem_nil, or_false] at hτ
    rcases hτ with rfl | rfl
    · exact presCoerceHole pHeroCommitted true (by decide) (by decide)
    · exact presCoercePlayers pHeroCommitted true (by decide) (by decide)
  · intro τ hτ
    simp only [List.mem_cons, List.not_mem_nil, or_false] at hτ
    rcases hτ with rfl
    exact presHolePlayers
  · intro τ hτ
    exact absurd hτ (List.not_mem_nil τ)

/-! ### Run-level helper lemmas -/

theorem runBody_preserve (L : List Step) (π : List Str)
    (hL : ∀ σ ∈ L, ∀ t t', σ t = .ok t' → getOptPath t' π = getOptPath t π) (s : JVal) :
    getOptPath (runBody L s) π = getOptPath s π := by
  induction L generalizing s with
  | nil => rfl
  | cons τ L' ih =>
    cases hτ : τ s with
    | error e =>
      rw [show runBody (τ :: L') s = (match τ s with
        | .ok u => runBody L' u
        | .error _ => s) from rfl, hτ]
    | ok s' =>
      rw [show runBody (τ :: L') s = (match τ s with
        | .ok u => runBody L' u
        | .error _ => s) from rfl, hτ]
      show getOptPath (runBody L' s') π = getOptPath s π
      rw [ih (fun σ hσ => hL σ (by simp [hσ])) s', hL τ (by simp) s s' hτ]

theorem runAllOk_append (L₁ L₂ : List Step) (s : JVal) :
    runAllOk (L₁ ++ L₂) s = (runAllOk L₁ s).bind (runAllOk L₂) := by
  induction L₁ generalizing s with
  | nil => rfl
  | cons τ L' ih =>
    cases hτ : τ s with
    | error e =>
      rw [show runAllOk ((τ :: L') ++ L₂) s = (match τ s with
        | .ok u => runAllOk (L' ++ L₂) u
        | .error _ => none) from rfl, hτ]
      rw [show runAllOk (τ :: L') s = (match τ s with
        | .ok u => runAllOk L' u
        | .error _ => none) from rfl, hτ]
      rfl
    | ok s' =>
      rw [show runAllOk ((τ :: L') ++ L₂) s = (match τ s with
        | .ok u => runAllOk (L' ++ L₂) u
        | .error _ => none) from rfl, hτ]
      rw [show runAllOk (τ :: L') s = (match τ s with
        | .ok u => runAllOk L' u
        | .error _ => none) from rfl, hτ]
      exact ih s'

theorem runAllOk_preserve (L : List Step) (π : List Str)
    (hL : ∀ σ ∈ L, ∀ t t', σ t = .ok t' → getOptPath t' π = getOptPath t π)
    (s u : JVal) (h : runAllOk L s = some u) : getOptPath u π = getOptPath s π := by
  induction L generalizing s with
  | nil =>
    have : s = u := by simpa [runAllOk] using h
    rw [this]
  | cons τ L' ih =>
    cases hτ : τ s with
    | error e =>
      rw [show runAllOk (τ :: L') s = (match τ s with
        | .ok u => runAllOk L' u
        | .error _ => none) from rfl, hτ] at h
      exact absurd h (by simp)
    | ok s' =>
      rw [show runAllOk (τ :: L') s = (match τ s with
        | .ok u => runAllOk L' u
        | .error _ => none) from rfl, hτ] at h
      rw [ih (fun σ hσ => hL σ (by simp [hσ])) s' h, hL τ (by simp) s s' hτ]

theorem runBody_eq_of_runAllOk (L : List Step) (s u : JVal)
    (h : runAllOk L s = some u) : runBody L s = u := by
  induction L generalizing s with
  | nil => simpa [runAllOk, runBody] using h
  | cons τ L' ih =>
    cases hτ : τ s with
    | error e =>
      rw [show runAllOk (τ :: L') s = (match τ s with
        | .ok u => runAllOk L' u
        | .error _ => none) from rfl, hτ] at h
      exact absurd h (by simp)
    | ok s' =>
      rw [show runAllOk (τ :: L') s = (match τ s with
        | .ok u => runAllOk L' u
        | .error _ => none) from rfl, hτ] at h
      rw [show runBody (τ :: L') s = (match τ s with
        | .ok u => runBody L' u
        | .error _ => s) from rfl, hτ]
      exact ih s' h

theorem runBody_prefix (L : List Step) (s : JVal) :
    ∃ n, runAllOk (L.take n) s = some (runBody L s) := by
  induction L generalizing s with
  | nil => exact ⟨0, rfl⟩
  | cons τ L' ih =>
    cases hτ : τ s with
    | error e =>
      refine ⟨0, ?_⟩
      rw [show runBody (τ :: L') s = (match τ s with
        | .ok u => runBody L' u
        | .error _ => s) from rfl, hτ]
      rfl
    | ok s' =>
      obtain ⟨n, hn⟩ := ih s'
      refine ⟨n + 1, ?_⟩
      rw [show runBody (τ :: L') s = (match τ s with
        | .ok u => runBody L' u
        | .error _ => s) from rfl, hτ]
      rw [show (τ :: L').take (n + 1) = τ :: L'.take n from rfl]
      rw [show runAllOk (τ :: L'.take n) s = (match τ s with
        | .ok u => runAllOk (L'.take n) u
        | .error _ => none) from rfl, hτ]
      exact hn

/-! ### Success of every fixup under the C3 shape hypotheses -/

theorem isObjV_exists (t : JVal) (h : isObjV t = true) : ∃ fs, t = .obj fs := by
  cases t <;> first
    | exact ⟨_, rfl⟩
    | exact Bool.noConfusion h

theorem invC3_node (v t t' : JVal) (hInv : InvC3 v t)
    (hhero : getOptF t' kHero = getOptF t kHero ∨
      (isObjV (getOptF t' kHero) = true ∧ isObjV (getOptF t kHero) = true))
    (htab : getOptF t' kTable = getOptF t kTable ∨
      (isObjV (getOptF t' kTable) = true ∧ isObjV (getOptF t kTable) = true))
    (hpl : getOptF t' kPlayers = getOptF t kPlayers)
    (hroot : t' = t ∨ ((∃ fs, t = .obj fs) ∧ (∃ fs', t' = .obj fs'))) : InvC3 v t' := by
  obtain ⟨ho, hh, ht, hp⟩ := hInv
  refine ⟨?_, ?_, ?_, ?_⟩
  · rcases hroot with rfl | ⟨_, ⟨fs', rfl⟩⟩
    · exact ho
    · rfl
  · rcases hhero with he | ⟨h₁, _⟩
    · rw [he]
      exact hh
    · exact h₁
  · rcases htab with he | ⟨h₁, _⟩
    · rw [he]
      exact ht
    · exact Or.inl h₁
  · rw [hpl]
    exact hp

theorem invStreet (v t : JVal) (hInv : InvC3 v t) :
    ∃ t', stepStreet t = .ok t' ∧ InvC3 v t' := by
  obtain ⟨ho, hh, ht, hp⟩ := hInv
  obtain ⟨fs, rfl⟩ := isObjV_exists t ho
  cases hm : streetByLen (filteredBoard (JVal.obj fs)).length with
  | none =>
    refine ⟨JVal.obj fs, ?_, ⟨ho, hh, ht, hp⟩⟩
    unfold stepStreet
    rw [hm]
  | some st =>
    rcases ht with hto | htf
    · obtain ⟨tf, htf'⟩ := isObjV_exists _ hto
      have hgd : getFieldD (JVal.obj fs) kTable = .obj tf := htf'
      have hset : setPath (JVal.obj fs) [kTable, kStreet] (.str st) =
          .ok (.obj (setFields fs kTable (.obj (setFields tf kStreet (.str st))))) := by
        show (match getField (JVal.obj fs) kTable with
          | .error e => Except.error e
          | .ok u =>
            match setPath u [kStreet] (JVal.str st) with
            | .error e => Except.error e
            | .ok u' => setField (JVal.obj fs) kTable u') = _
        rw [show getField (JVal.obj fs) kTable =
          .ok (getFieldD (JVal.obj fs) kTable) from rfl, hgd]
        rfl
      refine ⟨.obj (setFields fs kTable (.obj (setFields tf kStreet (.str st)))), ?_, ?_⟩
      · unfold stepStreet
        rw [hm]
        rw [show getField (JVal.obj fs) kTable =
          .ok (getFieldD (JVal.obj fs) kTable) from rfl, hgd]
        show (if jsTruthy (JVal.obj tf) then
          setPath (JVal.obj fs) [kTable, kStreet] (.str st) else Except.ok (JVal.obj fs)) = _
        rw [if_pos (by rfl)]
        exact hset
      · refine invC3_node v (JVal.obj fs) _ ⟨ho, hh, Or.inl hto, hp⟩ ?_ ?_ ?_ ?_
        · exact Or.inl (getOptF_setPath_ne _ kTable [kStreet] _ _ hset kHero (by decide))
        · exact setPath_node_rel _ _ kTable [kStreet] _ (by simp) hset kTable
        · exact getOptF_setPath_ne _ kTable [kStreet] _ _ hset kPlayers (by decide)
        · exact setPath_result_kind [kTable, kStreet] _ _ _ (by simp) hset
    · refine ⟨JVal.obj fs, ?_, ⟨ho, hh, Or.inr htf, hp⟩⟩
      unfold stepStreet
      rw [hm]
      rw [show getField (JVal.obj fs) kTable =
        .ok (getFieldD (JVal.obj fs) kTable) from rfl]
      have htf' : jsTruthy (getFieldD (JVal.obj fs) kTable) = false := htf
      show (if jsTruthy (getFieldD (JVal.obj fs) kTable) then
        setPath (JVal.obj fs) [kTable, kStreet] (.str st)
        else Except.ok (JVal.obj fs)) = _
      rw [htf']
      rfl

theorem stepCoerce_total (p : List Str) (f : Bool) (t : JVal) (hp : p ≠ []) :
    ∃ t', stepCoerce p f t = .ok t' := by
  by_cases hg : jsNonNullish (getOptPath t p) = true
  · obtain ⟨t', ht'⟩ := setPath_ok_of_nonNullish p t hp hg
      (if f ∧ isNullStrict (getOptPath t p) then JVal.null
       else JVal.num (jsToNumber (getOptPath t p)))
    refine ⟨t', ?_⟩
    show stepCoerce p f t = .ok t'
    rw [show stepCoerce p f t = if jsNonNullish (getOptPath t p) = true then
        (match getPathE t p with
         | .error e => Except.error e
         | .ok x => setPath t p (if f ∧ isNullStrict x then JVal.null
             else JVal.num (jsToNumber x))) else Except.ok t from rfl]
    rw [if_pos hg, getPathE_of_nonNullish p t hg]
    exact ht'
  · refine ⟨t, ?_⟩
    rw [show stepCoerce p f t = if jsNonNullish (getOptPath t p) = true then
        (match getPathE t p with
         | .error e => Except.error e
         | .ok x => setPath t p (if f ∧ isNullStrict x then JVal.null
             else JVal.num (jsToNumber x))) else Except.ok t from rfl]
    rw [if_neg hg]

theorem invCoerce (v t : JVal) (k : Str) (ρ : List Str) (f : Bool) (hρ : ρ ≠ [])
    (hd : divergeB [kPlayers] (k :: ρ) = true) (hInv : InvC3 v t) :
    ∃ t', stepCoerce (k :: ρ) f t = .ok t' ∧ InvC3 v t' := by
  obtain ⟨t', ht'⟩ := stepCoerce_total (k :: ρ) f t (by simp)
  refine ⟨t', ht', invC3_node v t t' hInv ?_ ?_ ?_ ?_⟩
  · exact stepCoerce_node k ρ f t t' hρ ht' kHero
  · exact stepCoerce_node k ρ f t t' hρ ht' kTable
  · exact stepCoerce_preserve (k :: ρ) f t t' [kPlayers] ht' hd
  · exact stepCoerce_root (k :: ρ) f t t' (by simp) ht'

theorem invHole (v t : JVal) (hInv : InvC3 v t) :
    ∃ t', stepHole t = .ok t' ∧ InvC3 v t' := by
  obtain ⟨ho, hh, ht, hp⟩ := hInv
  obtain ⟨fs, rfl⟩ := isObjV_exists t ho
  obtain ⟨hf, hhf⟩ := isObjV_exists _ hh
  have hgd : getFieldD (JVal.obj fs) kHero = .obj hf := hhf
  cases hv : getOptPath (JVal.obj fs) [kHero, kHole] with
  | arr xs =>
    refine ⟨JVal.obj fs, ?_, ⟨ho, hh, ht, hp⟩⟩
    unfold stepHole
    rw [hv]
  | _ =>
    have hset : setPath (JVal.obj fs) [kHero, kHole] (.arr []) =
        .ok (.obj (setFields fs kHero (.obj (setFields hf kHole (.arr []))))) := by
      show (match getField (JVal.obj fs) kHero with
        | .error e => Except.error e
        | .ok u =>
          match setPath u [kHole] (JVal.arr []) with
          | .error e => Except.error e
          | .ok u' => setField (JVal.obj fs) kHero u') = _
      rw [show getField (JVal.obj fs) kHero =
        .ok (getFieldD (JVal.obj fs) kHero) from rfl, hgd]
      rfl
    refine ⟨.obj (setFields fs kHero (.obj (setFields hf kHole (.arr [])))), ?_, ?_⟩
    · unfold stepHole
      rw [hv]
      exact hset
    · refine invC3_node v (JVal.obj fs) _ ⟨ho, hh, ht, hp⟩ ?_ ?_ ?_ ?_
      · exact setPath_node_rel _ _ kHero [kHole] _ (by simp) hset kHero
      · exact Or.inl (getOptF_setPath_ne _ kHero [kHole] _ _ hset kTable (by decide))
      · exact getOptF_setPath_ne _ kHero [kHole] _ _ hset kPlayers (by decide)
      · exact setPath_result_kind [kHero, kHole] _ _ _ (by simp) hset

theorem mapCorrect_ok_of_nonNullish (ps : List JVal)
    (h : ∀ p ∈ ps, jsNonNullish p = true) :
    ∃ qs, mapCorrect ps = .ok qs ∧
      List.Forall₂ (fun p q => correctPlayer p = .ok q) ps qs := by
  induction ps with
  | nil => exact ⟨[], rfl, .nil⟩
  | cons p ps ih =>
    have hco : correctPlayer p = .ok (.obj (correctedPlayerFields p)) := by
      have hnn := h p (by simp)
      cases p <;> first
        | rfl
        | exact Bool.noConfusion hnn
    obtain ⟨qs, hqs, hrel⟩ := ih (fun q hq => h q (by simp [hq]))
    refine ⟨.obj (correctedPlayerFields p) :: qs, ?_, .cons hco hrel⟩
    unfold mapCorrect
    rw [hco, hqs]

theorem invPlayers (v t : JVal) (hInv : InvC3 v t)
    (hps : ∀ ps, v = .arr ps → ∀ p ∈ ps, jsNonNullish p = true) :
    ∃ t', stepPlayers t = .ok t' := by
  obtain ⟨ho, _, _, hp⟩ := hInv
  obtain ⟨fs, rfl⟩ := isObjV_exists t ho
  cases hv : getOptF (JVal.obj fs) kPlayers with
  | arr ps =>
    obtain ⟨qs, hqs, _⟩ := mapCorrect_ok_of_nonNullish ps
      (hps ps (by rw [← hp, hv]))
    refine ⟨.obj (setFields fs kPlayers (.arr qs)), ?_⟩
    unfold stepPlayers
    rw [hv]
    show (match mapCorrect ps with
      | .error e => Except.error e
      | .ok ps' => setField (JVal.obj fs) kPlayers (.arr ps')) =
      Except.ok (.obj (setFields fs kPlayers (.arr qs)))
    rw [hqs]
    rfl
  | _ =>
    refine ⟨JVal.obj fs, ?_⟩
    unfold stepPlayers
    rw [hv]

theorem runAllOk_cons (σ : Step) (L : List Step) (s s' : JVal) (h : σ s = .ok s') :
    runAllOk (σ :: L) s = runAllOk L s' := by
  rw [show runAllOk (σ :: L) s = (match σ s with
    | .ok u => runAllOk L u
    | .error _ => none) from rfl, h]

/-- Under the C3 shape hypotheses every fixup runs (no exception is thrown),
and the invariant still holds at the end. -/
theorem invRunAll (v s : JVal) (hInv : InvC3 v s)
    (hps : ∀ ps, v = .arr ps → ∀ p ∈ ps, jsNonNullish p = true) :
    ∃ u, runAllOk correctionSteps s = some u := by
  obtain ⟨s₁, h₁, i₁⟩ := invStreet v s hInv
  obtain ⟨s₂, h₂, i₂⟩ := invCoerce v s₁ kTable [kPot] false (by simp) (by decide) i₁
  obtain ⟨s₃, h₃, i₃⟩ := invCoerce v s₂ kTable [kMinRaise] true (by simp) (by decide) i₂
  obtain ⟨s₄, h₄, i₄⟩ := invCoerce v s₃ kTable [kMaxBet] true (by simp) (by decide) i₃
  obtain ⟨s₅, h₅, i₅⟩ := invCoerce v s₄ kTable [kStakes, kSb] false (by simp) (by decide) i₄
  obtain ⟨s₆, h₆, i₆⟩ := invCoerce v s₅ kTable [kStakes, kBb] false (by simp) (by decide) i₅
  obtain ⟨s₇, h₇, i₇⟩ := invCoerce v s₆ kHero [kStack] false (by simp) (by decide) i₆
  obtain ⟨s₈, h₈, i₈⟩ := invCoerce v s₇ kHero [kCommitted] true (by simp) (by decide) i₇
  obtain ⟨s₉, h₉, i₉⟩ := invHole v s₈ i₈
  obtain ⟨s₁₀, h₁₀⟩ := invPlayers v s₉ i₉ hps
  have h₂' : stepCoerce pPot false s₁ = .ok s₂ := h₂
  have h₃' : stepCoerce pMinRaise true s₂ = .ok s₃ := h₃
  have h₄' : stepCoerce pMaxBet true s₃ = .ok s₄ := h₄
  have h₅' : stepCoerce pSb false s₄ = .ok s₅ := h₅
  have h₆' : stepCoerce pBb false s₅ = .ok s₆ := h₆
  have h₇' : stepCoerce pHeroStack false s₆ = .ok s₇ := h₇
  have h₈' : stepCoerce pHeroCommitted true s₇ = .ok s₈ := h₈
  refine ⟨s₁₀, ?_⟩
  show runAllOk correctionSteps s = some s₁₀
  unfold correctionSteps
  rw [runAllOk_cons _ _ _ _ h₁, runAllOk_cons _ _ _ _ h₂', runAllOk_cons _ _ _ _ h₃',
    runAllOk_cons _ _ _ _ h₄', runAllOk_cons _ _ _ _ h₅', runAllOk_cons _ _ _ _ h₆',
    runAllOk_cons _ _ _ _ h₇', runAllOk_cons _ _ _ _ h₈', runAllOk_cons _ _ _ _ h₉,
    runAllOk_cons _ _ _ _ h₁₀]
  rfl

/-- Tracing one coerced path through the full successful run. -/
theorem coerceValueThrough (A B : List Step) (p : List Str) (f : Bool) (hp : p ≠ [])
    (hA : ∀ σ ∈ A, ∀ t t', σ t = .ok t' → getOptPath t' p = getOptPath t p)
    (hB : ∀ σ ∈ B, ∀ t t', σ t = .ok t' → getOptPath t' p = getOptPath t p)
    (s final : JVal)
    (h : runAllOk (A ++ stepCoerce p f :: B) s = some final) :
    getOptPath final p =
      (if jsNonNullish (getOptPath s p) then .num (jsToNumber (getOptPath s p))
       else getOptPath s p) := by
  rw [runAllOk_append] at h
  cases hu₁ : runAllOk A s with
  | none => rw [hu₁] at h; exact absurd h (by simp)
  | some u₁ =>
    rw [hu₁] at h
    have hval₁ : getOptPath u₁ p = getOptPath s p := runAllOk_preserve A p hA s u₁ hu₁
    rw [show Option.bind (some u₁) (runAllOk (stepCoerce p f :: B)) =
      runAllOk (stepCoerce p f :: B) u₁ from rfl] at h
    cases hσ : stepCoerce p f u₁ with
    | error e =>
      rw [show runAllOk (stepCoerce p f :: B) u₁ = (match stepCoerce p f u₁ with
        | .ok u => runAllOk B u
        | .error _ => none) from rfl, hσ] at h
      exact absurd h (by simp)
    | ok u₂ =>
      rw [runAllOk_cons _ _ _ _ hσ] at h
      have hval₃ : getOptPath final p = getOptPath u₂ p := runAllOk_preserve B p hB u₂ final h
      rcases stepCoerce_ok_inv p f u₁ u₂ hσ with ⟨hg, rfl⟩ | ⟨hg, hset⟩
      · rw [hval₃, hval₁]
        rw [if_neg (by rw [← hval₁]; simp [hg])]
      · have hval₂ : getOptPath u₂ p = .num (jsToNumber (getOptPath u₁ p)) :=
          getOptPath_setPath_self p u₁ _ u₂ hg hset
        rw [hval₃, hval₂, hval₁]
        rw [if_pos (by rw [← hval₁]; exact hg)]

/-- The corrected player entries never hold string-typed numeric fields. -/
theorem correctPlayer_numFix (p q : JVal) (h : correctPlayer p = .ok q) :
    playerNumFix p q := by
  have hnn : jsNonNullish p = true := by
    cases p <;> first
      | rfl
      | simp [correctPlayer] at h
  have hq : q = .obj (correctedPlayerFields p) := by
    cases p <;> first
      | exact (Except.ok.inj h).symm
      | simp [correctPlayer] at h
  subst hq
  have hof : ∀ k, getOptF p k = getFieldD p k := fun k => getOptF_of_nonNullish p k hnn
  refine ⟨?_, ?_, ?_⟩
  · rw [show getOptF (JVal.obj (correctedPlayerFields p)) kSeat =
      (lookupF (correctedPlayerFields p) kSeat).getD .undefined from rfl,
      lookup_cpf_seat, Option.getD_some, hof kSeat]
  · rw [show getOptF (JVal.obj (correctedPlayerFields p)) kStack =
      (lookupF (correctedPlayerFields p) kStack).getD .undefined from rfl,
      lookup_cpf_stack, Option.getD_some, hof kStack]
  · rw [show getOptF (JVal.obj (correctedPlayerFields p)) kCommitted =
      (lookupF (correctedPlayerFields p) kCommitted).getD .undefined from rfl,
      lookup_cpf_committed, Option.getD_some, hof kCommitted]

/-- Corrected player entries keep every key outside the five rewritten ones. -/
theorem correctPlayer_extras (p q : JVal) (h : correctPlayer p = .ok q) :
    playerExtras p q := by
  intro k hk hobj
  obtain ⟨pf, rfl⟩ := isObjV_exists p hobj
  have hq : q = .obj (correctedPlayerFields (.obj pf)) := (Except.ok.inj h).symm
  subst hq
  have hk₁ : kInHand ≠ k := fun e => hk (by rw [← e]; simp [playerFieldKeys])
  have hk₂ : kPosition ≠ k := fun e => hk (by rw [← e]; simp [playerFieldKeys])
  have hk₃ : kCommitted ≠ k := fun e => hk (by rw [← e]; simp [playerFieldKeys])
  have hk₄ : kStack ≠ k := fun e => hk (by rw [← e]; simp [playerFieldKeys])
  have hk₅ : kSeat ≠ k := fun e => hk (by rw [← e]; simp [playerFieldKeys])
  rw [show getOptF (JVal.obj (correctedPlayerFields (.obj pf))) k =
    (lookupF (correctedPlayerFields (.obj pf)) k).getD .undefined from rfl]
  unfold correctedPlayerFields
  rw [lookupF_setFields_ne _ kInHand _ k hk₁, lookupF_setFields_ne _ kPosition _ k hk₂,
    lookupF_setFields_ne _ kCommitted _ k hk₃, lookupF_setFields_ne _ kStack _ k hk₄,
    lookupF_setFields_ne _ kSeat _ k hk₅]
  rfl

/-! ### String lemmas for the Loose JSON Extractor -/

theorem dropWhile_head_false (f : Char → Bool) (l : Str) (c : Char)
    (h : (l.dropWhile f).head? = some c) : f c = false := by
  induction l with
  | nil => simp [List.dropWhile] at h
  | cons a l ih =>
    rw [List.dropWhile_cons] at h
    by_cases ha : f a = true
    · rw [if_pos ha] at h
      exact ih h
    · rw [if_neg ha] at h
      have : a = c := by simpa using h
      subst this
      cases hv : f a
      · rfl
      · exact absurd hv ha

theorem dropWhile_of_head (f : Char → Bool) (l : Str) (c : Char)
    (h : l.head? = some c) (hc : f c = false) : l.dropWhile f = l := by
  cases l with
  | nil => rfl
  | cons a l =>
    have : a = c := by simpa using h
    subst this
    rw [List.dropWhile_cons, if_neg (by simp [hc])]

theorem getLast?_append_right (l₁ l₂ : Str) (h : l₂ ≠ []) :
    (l₁ ++ l₂).getLast? = l₂.getLast? := by
  rw [← List.head?_reverse, ← List.head?_reverse, List.reverse_append]
  cases hr : l₂.reverse with
  | nil => exact absurd (by simpa using hr) h
  | cons c r => rfl

theorem trim_eq_self (cs : Str) (c d : Char) (hh : cs.head? = some c)
    (hc : isJsWs c = false) (hl : cs.getLast? = some d) (hd : isJsWs d = false) :
    trimStr cs = cs := by
  unfold trimStr
  rw [dropWhile_of_head isJsWs cs c hh hc]
  rw [dropWhile_of_head isJsWs cs.reverse d (by rw [List.head?_reverse]; exact hl) hd]
  exact List.reverse_reverse cs

theorem trimStr_head_nonws (cs : Str) (c : Char) (h : (trimStr cs).head? = some c) :
    isJsWs c = false := by
  unfold trimStr at h
  rw [List.head?_reverse] at h
  have hnil : (cs.dropWhile isJsWs).reverse.dropWhile isJsWs ≠ [] := by
    intro he
    rw [he] at h
    simp at h
  have hsplit := List.takeWhile_append_dropWhile (p := isJsWs)
    (l := (cs.dropWhile isJsWs).reverse)
  have hlastX : (cs.dropWhile isJsWs).reverse.getLast? = some c := by
    conv_lhs => rw [← hsplit]
    rw [getLast?_append_right _ _ hnil]
    exact h
  rw [List.getLast?_reverse] at hlastX
  exact dropWhile_head_false isJsWs cs c hlastX

theorem trimStr_last_nonws (cs : Str) (d : Char) (h : (trimStr cs).getLast? = some d) :
    isJsWs d = false := by
  unfold trimStr at h
  rw [List.getLast?_reverse] at h
  exact dropWhile_head_false isJsWs (cs.dropWhile isJsWs).reverse d h

theorem trimStr_idem (cs : Str) : trimStr (trimStr cs) = trimStr cs := by
  cases hv : trimStr cs with
  | nil => rfl
  | cons c rest =>
    have hh : (trimStr cs).head? = some c := by rw [hv]; rfl
    have hl : (trimStr cs).getLast?.isSome = true := by
      rw [hv]
      cases hrl : (c :: rest).getLast? with
      | none => exact absurd hrl (by simp)
      | some d => rfl
    obtain ⟨d, hd⟩ := Option.isSome_iff_exists.mp hl
    rw [← hv]
    exact trim_eq_self (trimStr cs) c d hh (trimStr_head_nonws cs c hh) hd
      (trimStr_last_nonws cs d hd)

theorem trimStr_mem (cs : Str) (c : Char) (h : c ∈ trimStr cs) : c ∈ cs := by
  unfold trimStr at h
  rw [List.mem_reverse] at h
  have h₁ := (List.dropWhile_sublist (l := (cs.dropWhile isJsWs).reverse)
    (p := isJsWs)).mem h
  rw [List.mem_reverse] at h₁
  exact (List.dropWhile_sublist (l := cs) (p := isJsWs)).mem h₁

theorem removeFences_id (cs : Str) (h : '`' ∉ cs) : removeFences cs = cs := by
  induction cs with
  | nil => rfl
  | cons c rest ih =>
    have hc : c ≠ '`' := fun e => h (by rw [e]; exact List.mem_cons_self _ _)
    have hrest : '`' ∉ rest := fun hm => h (List.mem_cons_of_mem c hm)
    unfold removeFences
    split
    next x r' heq =>
      exact absurd (List.cons.inj heq).1 hc
    next x c' r' hno heq =>
      obtain ⟨h1, h2⟩ := List.cons.inj heq
      rw [← h1, ← h2, ih hrest]
    next x heq =>
      exact absurd heq (by simp)

theorem dropWhile_append_of_head (f : Char → Bool) (p rest : Str) (c : Char)
    (hh : rest.head? = some c) (hc : f c = false) :
    (p ++ rest).dropWhile f = p.dropWhile f ++ rest := by
  induction p with
  | nil =>
    simp only [List.nil_append]
    exact dropWhile_of_head f rest c hh hc
  | cons a p ih =>
    rw [List.cons_append, List.dropWhile_cons, List.dropWhile_cons]
    by_cases ha : f a = true
    · rw [if_pos ha, if_pos ha]
      exact ih
    · rw [if_neg ha, if_neg ha]
      rfl

theorem idxOfC_append_not_mem (c : Char) (xs ys : Str) (h : c ∉ xs) :
    idxOfC c (xs ++ ys) = (idxOfC c ys).map (· + xs.length) := by
  induction xs with
  | nil =>
    simp only [List.nil_append, List.length_nil]
    cases idxOfC c ys <;> rfl
  | cons a xs ih =>
    have ha : a ≠ c := fun e => h (by rw [e]; exact List.mem_cons_self _ _)
    have h' : c ∉ xs := fun hm => h (List.mem_cons_of_mem a hm)
    rw [List.cons_append]
    show (if a = c then some 0 else (idxOfC c (xs ++ ys)).map (· + 1)) = _
    rw [if_neg ha, ih h']
    cases idxOfC c ys with
    | none => rfl
    | some i =>
      show some (i + xs.length + 1) = some (i + (xs.length + 1))
      rw [Nat.add_assoc]

theorem head?_append_left (l₁ l₂ : Str) (c : Char) (h : l₁.head? = some c) :
    (l₁ ++ l₂).head? = some c := by
  cases l₁ with
  | nil => simp at h
  | cons a r => simpa using h

theorem idxOfC_head (c : Char) (l : Str) (h : l.head? = some c) :
    idxOfC c l = some 0 := by
  cases l with
  | nil => simp at h
  | cons a r =>
    have ha : a = c := by simpa using h
    simp [idxOfC, ha]

theorem parseJsonLoose_spec (s : Str) :
    parseJsonLoose s =
      if s.isEmpty then .error .emptyResponse
      else
        match jsonParse (looseClean s) with
        | some v => .ok v
        | none =>
          match idxOfC '\x7b' (looseClean s), lastIdxOfC '\x7d' (looseClean s) with
          | some a, some b =>
            if a < b then
              match jsonParse (sliceStr (looseClean s) a (b + 1)) with
              | some v => .ok v
              | none => .error .jsonSyntaxError
            else .error .couldNotParse
          | _, _ => .error .couldNotParse := rfl

theorem trim_sandwich (p j q : Str) (c d : Char)
    (hjh : j.head? = some c) (hc : isJsWs c = false)
    (hjl : j.getLast? = some d) (hd : isJsWs d = false) :
    trimStr (p ++ j ++ q) =
      p.dropWhile isJsWs ++ j ++ (q.reverse.dropWhile isJsWs).reverse := by
  unfold trimStr
  rw [List.append_assoc]
  rw [dropWhile_append_of_head isJsWs p (j ++ q) c (head?_append_left _ _ _ hjh) hc]
  rw [show (p.dropWhile isJsWs ++ (j ++ q)).reverse
      = q.reverse ++ (j.reverse ++ (p.dropWhile isJsWs).reverse) by simp]
  rw [dropWhile_append_of_head isJsWs q.reverse (j.reverse ++ (p.dropWhile isJsWs).reverse) d
      (head?_append_left _ _ _ (by rw [List.head?_reverse]; exact hjl)) hd]
  simp

theorem lastIdxOfC_sandwich (p j q : Str) (d : Char) (hq : d ∉ q)
    (hjl : j.getLast? = some d) :
    lastIdxOfC d (p ++ j ++ q) = some (p.length + j.length - 1) := by
  have hj1 : 1 ≤ j.length := by
    cases j with
    | nil => simp at hjl
    | cons a r => simp
  unfold lastIdxOfC
  rw [show (p ++ j ++ q).reverse = q.reverse ++ (j.reverse ++ p.reverse) by simp]
  rw [idxOfC_append_not_mem d q.reverse (j.reverse ++ p.reverse) (by simpa using hq)]
  rw [idxOfC_head d (j.reverse ++ p.reverse)
      (head?_append_left _ _ _ (by rw [List.head?_reverse]; exact hjl))]
  refine congrArg some ?_
  simp only [List.length_append, List.length_reverse, List.length_append]
  omega

theorem slice_sandwich (p j q : Str) :
    sliceStr (p ++ j ++ q) p.length (p.length + j.length) = j := by
  unfold sliceStr
  rw [List.append_assoc, List.drop_left]
  rw [show p.length + j.length - p.length = j.length by omega]
  exact List.take_left j q

theorem parseJsonLoose_fenced (j : Str) (v : JVal)
    (hjh : j.head? = some '\x7b') (hjl : j.getLast? = some '\x7d')
    (hok : jsonParse j = some v) :
    parseJsonLoose ("```json\n".data ++ j ++ "\n```".data) = .ok v := by
  have hne : ("```json\n".data ++ j ++ "\n```".data).isEmpty = false := rfl
  have hlast : ("```json\n".data ++ j ++ "\n```".data).getLast? = some '`' := by
    rw [getLast?_append_right _ _ (by decide)]
    rfl
  have ht₀ : trimStr ("```json\n".data ++ j ++ "\n```".data)
      = "```json\n".data ++ j ++ "\n```".data :=
    trim_eq_self _ '`' '`' rfl (by decide) hlast (by decide)
  have hopen : stripOpenFence ("```json\n".data ++ j ++ "\n```".data)
      = j ++ "\n```".data := rfl
  have hclose : stripCloseFence (j ++ "\n```".data) = j ++ ['\n'] := by
    have hrev : (j ++ "\n```".data).reverse = '`' :: '`' :: '`' :: ('\n' :: j.reverse) := by
      rw [List.reverse_append]
      rfl
    unfold stripCloseFence
    rw [hrev]
    show ('\n' :: j.reverse).reverse = j ++ ['\n']
    simp
  have htrim2 : trimStr (j ++ ['\n']) = j := by
    unfold trimStr
    rw [dropWhile_of_head isJsWs (j ++ ['\n']) '\x7b'
        (head?_append_left _ _ _ hjh) (by decide)]
    rw [show (j ++ ['\n']).reverse = '\n' :: j.reverse by rw [List.reverse_append]; rfl]
    show ((j.reverse.dropWhile isJsWs)).reverse = j
    rw [dropWhile_of_head isJsWs j.reverse '\x7d'
        (by rw [List.head?_reverse]; exact hjl) (by decide)]
    simp
  have hclean : looseClean ("```json\n".data ++ j ++ "\n```".data) = j := by
    unfold looseClean
    rw [ht₀]
    rw [if_pos (show ("```json\n".data ++ j ++ "\n```".data).take 3 = "```".data from rfl)]
    rw [hopen, hclose, htrim2]
  rw [parseJsonLoose_spec, if_neg (by rw [hne]; exact Bool.false_ne_true)]
  simp only [hclean, hok]

theorem parseJsonLoose_prose (p j q : Str) (v : JVal)
    (hpb : '`' ∉ p) (hjb : '`' ∉ j) (hqb : '`' ∉ q)
    (hpo : '\x7b' ∉ p) (hqc : '\x7d' ∉ q)
    (hjh : j.head? = some '\x7b') (hjl : j.getLast? = some '\x7d') (hj2 : 2 ≤ j.length)
    (hfail : jsonParse (trimStr (p ++ j ++ q)) = none)
    (hok : jsonParse j = some v) :
    parseJsonLoose (p ++ j ++ q) = .ok v := by
  have hjne : j ≠ [] := by
    intro h
    rw [h] at hjh
    simp at hjh
  have hne : (p ++ j ++ q).isEmpty = false := by
    cases hpp : p ++ j ++ q with
    | nil =>
      rw [List.append_assoc, List.append_eq_nil] at hpp
      exact absurd ((List.append_eq_nil.mp hpp.2).1) hjne
    | cons a r => rfl
  have hbt : '`' ∉ trimStr (p ++ j ++ q) := by
    intro hm
    have h1 := trimStr_mem _ _ hm
    rw [List.mem_append, List.mem_append] at h1
    rcases h1 with (h1 | h1) | h1
    exacts [hpb h1, hjb h1, hqb h1]
  have htake : ¬((trimStr (p ++ j ++ q)).take 3 = "```".data) := by
    intro h
    exact hbt ((List.take_sublist 3 _).mem (by rw [h]; decide))
  have htr : trimStr (p ++ j ++ q) =
      p.dropWhile isJsWs ++ j ++ (q.reverse.dropWhile isJsWs).reverse :=
    trim_sandwich p j q '\x7b' '\x7d' hjh (by decide) hjl (by decide)
  have hclean : looseClean (p ++ j ++ q) =
      p.dropWhile isJsWs ++ j ++ (q.reverse.dropWhile isJsWs).reverse := by
    unfold looseClean
    rw [if_neg htake]
    rw [removeFences_id _ hbt, trimStr_idem, htr]
  have hfail' : jsonParse
      (p.dropWhile isJsWs ++ j ++ (q.reverse.dropWhile isJsWs).reverse) = none := by
    rw [← htr]
    exact hfail
  have hpo' : '\x7b' ∉ p.dropWhile isJsWs := fun hm =>
    hpo ((List.dropWhile_sublist (l := p) (p := isJsWs)).mem hm)
  have hqc' : '\x7d' ∉ (q.reverse.dropWhile isJsWs).reverse := by
    intro hm
    rw [List.mem_reverse] at hm
    exact hqc (by
      rw [← List.mem_reverse]
      exact (List.dropWhile_sublist (l := q.reverse) (p := isJsWs)).mem hm)
  have ha : idxOfC '\x7b'
      (p.dropWhile isJsWs ++ j ++ (q.reverse.dropWhile isJsWs).reverse)
      = some (p.dropWhile isJsWs).length := by
    rw [List.append_assoc]
    rw [idxOfC_append_not_mem _ _ _ hpo']
    rw [idxOfC_head _ _ (head?_append_left _ _ _ hjh)]
    simp
  have hb : lastIdxOfC '\x7d'
      (p.dropWhile isJsWs ++ j ++ (q.reverse.dropWhile isJsWs).reverse)
      = some ((p.dropWhile isJsWs).length + j.length - 1) :=
    lastIdxOfC_sandwich _ j _ '\x7d' hqc' hjl
  have hab : (p.dropWhile isJsWs).length < (p.dropWhile isJsWs).length + j.length - 1 := by
    omega
  have hslice : sliceStr
      (p.dropWhile isJsWs ++ j ++ (q.reverse.dropWhile isJsWs).reverse)
      (p.dropWhile isJsWs).length ((p.dropWhile isJsWs).length + j.length - 1 + 1) = j := by
    rw [show (p.dropWhile isJsWs).length + j.length - 1 + 1
        = (p.dropWhile isJsWs).length + j.length by omega]
    exact slice_sandwich _ j _
  rw [parseJsonLoose_spec, if_neg (by rw [hne]; exact Bool.false_ne_true)]
  simp only [hclean, hfail', ha, hb]
  rw [if_pos hab, hslice, hok]

theorem joinNl_head? (s : Str) (rest : List Str) (hs : s ≠ []) :
    (joinNl (s :: rest)).head? = s.head? := by
  cases rest with
  | nil => rfl
  | cons r t =>
    show (s ++ '\n' :: joinNl (r :: t)).head? = s.head?
    cases s with
    | nil => exact absurd rfl hs
    | cons a as => rfl

theorem joinNl_ne_nil (r : Str) (t : List Str) (hr : r ≠ []) : joinNl (r :: t) ≠ [] := by
  intro h
  cases t with
  | nil => exact hr h
  | cons a b =>
    rw [show joinNl (r :: a :: b) = r ++ '\n' :: joinNl (a :: b) from rfl] at h
    rcases List.append_eq_nil.mp h with ⟨h1, h2⟩
    exact List.noConfusion h2

theorem joinNl_getLast?_mem (s : Str) (rest : List Str) (hrest : ∀ x ∈ rest, x ≠ []) :
    ∃ x, x ∈ s :: rest ∧ (joinNl (s :: rest)).getLast? = x.getLast? := by
  induction rest generalizing s with
  | nil => exact ⟨s, List.mem_cons_self s [], rfl⟩
  | cons r t ih =>
    obtain ⟨x, hx, hlast⟩ := ih r (fun y hy => hrest y (List.mem_cons_of_mem r hy))
    refine ⟨x, List.mem_cons_of_mem s hx, ?_⟩
    show (s ++ '\n' :: joinNl (r :: t)).getLast? = x.getLast?
    rw [getLast?_append_right s ('\n' :: joinNl (r :: t)) (by simp)]
    rw [show ('\n' :: joinNl (r :: t)) = ['\n'] ++ joinNl (r :: t) from rfl]
    rw [getLast?_append_right ['\n'] (joinNl (r :: t))
        (joinNl_ne_nil r t (hrest r (List.mem_cons_self r t)))]
    exact hlast

theorem trimStr_joinNl (L : List Str)
    (h : ∀ s ∈ L, ∃ t, s = trimStr t ∧ s.isEmpty = false) :
    trimStr (joinNl L) = joinNl L := by
  cases L with
  | nil => rfl
  | cons s rest =>
    obtain ⟨t, hst, hse⟩ := h s (List.mem_cons_self s rest)
    have hsne : s ≠ [] := by
      intro he
      rw [he] at hse
      exact Bool.noConfusion hse
    obtain ⟨c, hc⟩ : ∃ c, s.head? = some c := by
      cases s with
      | nil => exact absurd rfl hsne
      | cons a as => exact ⟨a, rfl⟩
    have hcw : isJsWs c = false := trimStr_head_nonws t c (by rw [← hst]; exact hc)
    have hrest' : ∀ x ∈ rest, x ≠ [] := by
      intro x hx he
      obtain ⟨t', hxt, hxe⟩ := h x (List.mem_cons_of_mem s hx)
      rw [he] at hxe
      exact Bool.noConfusion hxe
    obtain ⟨x, hxmem, hxlast⟩ := joinNl_getLast?_mem s rest hrest'
    obtain ⟨tx, hxt, hxe⟩ := h x hxmem
    have hxne : x ≠ [] := by
      intro he
      rw [he] at hxe
      exact Bool.noConfusion hxe
    obtain ⟨d, hd⟩ : ∃ d, x.getLast? = some d := by
      cases hgl : x.getLast? with
      | none =>
        cases x with
        | nil => exact absurd rfl hxne
        | cons a as => exact absurd hgl (by simp)
      | some d => exact ⟨d, rfl⟩
    have hdw : isJsWs d = false := trimStr_last_nonws tx d (by rw [← hxt]; exact hd)
    refine trim_eq_self (joinNl (s :: rest)) c d ?_ hcw ?_ hdw
    · rw [joinNl_head? s rest hsne]
      exact hc
    · rw [hxlast]
      exact hd

theorem partTexts_mem_trim (msg : JVal) (s : Str) (h : s ∈ partTexts msg) :
    ∃ t, s = trimStr t ∧ s.isEmpty = false := by
  unfold partTexts at h
  cases hc : getOptF msg kContent with
  | arr parts =>
    rw [hc] at h
    rw [List.mem_filterMap] at h
    obtain ⟨part, hpmem, hpf⟩ := h
    cases ht : getOptF part kText with
    | str t =>
      rw [ht] at hpf
      have hpf' : (if (trimStr t).isEmpty = true then none else some (trimStr t))
          = some s := hpf
      cases hb : (trimStr t).isEmpty with
      | true =>
        rw [hb] at hpf'
        exact Option.noConfusion hpf'
      | false =>
        rw [hb] at hpf'
        have hst : trimStr t = s := Option.some.inj hpf'
        exact ⟨t, hst.symm, by rw [← hst]; exact hb⟩
    | undefined => rw [ht] at hpf; exact Option.noConfusion hpf
    | null => rw [ht] at hpf; exact Option.noConfusion hpf
    | bool b => rw [ht] at hpf; exact Option.noConfusion hpf
    | num q => rw [ht] at hpf; exact Option.noConfusion hpf
    | arr a => rw [ht] at hpf; exact Option.noConfusion hpf
    | obj f => rw [ht] at hpf; exact Option.noConfusion hpf
  | undefined => rw [hc] at h; simp at h
  | null => rw [hc] at h; simp at h
  | bool b => rw [hc] at h; simp at h
  | num q => rw [hc] at h; simp at h
  | str t => rw [hc] at h; simp at h
  | obj f => rw [hc] at h; simp at h

theorem flatMap_foldr (msgs : List JVal) :
    msgs.flatMap partTexts = (msgs.map partTexts).foldr (· ++ ·) [] := by
  induction msgs with
  | nil => rfl
  | cons m rest ih => simp [List.flatMap_cons, ih]

theorem codeCollected_eq_spec (o : JVal) :
    codeCollected o = specOutputText.specCollected o := by
  unfold codeCollected specOutputText.specCollected
  cases hout : getOptF o kOutput with
  | arr msgs =>
    show trimStr (joinNl (msgs.flatMap partTexts))
      = joinNl (List.foldr (fun a b => a ++ b) [] (List.map partTexts msgs))
    rw [← flatMap_foldr]
    apply trimStr_joinNl
    intro s hs
    rw [List.mem_flatMap] at hs
    obtain ⟨msg, hmm, hsp⟩ := hs
    exact partTexts_mem_trim msg s hsp
  | undefined => rfl
  | null => rfl
  | bool b => rfl
  | num q => rfl
  | str t => rfl
  | obj f => rfl

theorem getOutputText_ok (o : JVal)
    (h : jsTruthy (getOptF o kOutputText) = true →
      ∃ s, getOptF o kOutputText = JVal.str s) :
    getOutputText o = .ok (specOutputText o) := by
  cases hT : jsTruthy (getOptF o kOutputText) with
  | true =>
    obtain ⟨s, hs⟩ := h hT
    rw [hs] at hT
    have hcode : getOutputText o =
        (if (trimStr s).isEmpty then Except.ok (codeCollected o)
         else Except.ok (trimStr s)) := by
      unfold getOutputText
      rw [hs, if_pos hT]
      rfl
    have hspec : specOutputText o =
        (if (trimStr s).isEmpty then specOutputText.specCollected o else trimStr s) := by
      unfold specOutputText
      rw [hs]
    rw [hcode, hspec]
    cases he : (trimStr s).isEmpty with
    | true =>
      rw [if_pos rfl, if_pos rfl, codeCollected_eq_spec]
    | false =>
      rw [if_neg Bool.false_ne_true, if_neg Bool.false_ne_true]
  | false =>
    have hcode : getOutputText o = Except.ok (codeCollected o) := by
      unfold getOutputText
      rw [if_neg (by rw [hT]; exact Bool.false_ne_true)]
    have hspec : specOutputText o = specOutputText.specCollected o := by
      unfold specOutputText
      cases ho : getOptF o kOutputText with
      | str s =>
        rw [ho] at hT
        have hse : s.isEmpty = true := by
          cases hb : s.isEmpty with
          | true => rfl
          | false =>
            rw [show jsTruthy (JVal.str s) = !s.isEmpty from rfl, hb] at hT
            exact Bool.noConfusion hT
        have hsnil : s = [] := by
          cases s with
          | nil => rfl
          | cons a as => exact Bool.noConfusion hse
        rw [hsnil]
        rfl
      | undefined => rfl
      | null => rfl
      | bool b => rfl
      | num q => rfl
      | arr a => rfl
      | obj f => rfl
    rw [hcode, hspec, codeCollected_eq_spec]

theorem getField_ok_inv (v : JVal) (k : Str) (t : JVal) (h : getField v k = .ok t) :
    jsNonNullish v = true ∧ getOptF v k = t := by
  cases v <;> first
    | exact ⟨rfl, Except.ok.inj h⟩
    | exact absurd h (by simp [getField])

theorem mapCorrect_forall₂ (ps qs : List JVal) (h : mapCorrect ps = .ok qs) :
    List.Forall₂ (fun p q => correctPlayer p = .ok q) ps qs := by
  induction ps generalizing qs with
  | nil =>
    have : qs = [] := by simpa [mapCorrect] using h.symm
    rw [this]
    exact List.Forall₂.nil
  | cons p ps' ih =>
    unfold mapCorrect at h
    cases hc : correctPlayer p with
    | error e => rw [hc] at h; exact absurd h (by simp)
    | ok q =>
      rw [hc] at h
      cases hmc : mapCorrect ps' with
      | error e => rw [hmc] at h; exact absurd h (by simp)
      | ok qs' =>
        rw [hmc] at h
        have : q :: qs' = qs := Except.ok.inj h
        rw [← this]
        exact List.Forall₂.cons hc (ih qs' hmc)

theorem runBody_append (A B : List Step) (s : JVal) :
    (∃ u, runAllOk A s = some u ∧ runBody (A ++ B) s = runBody B u) ∨
    (runAllOk A s = none ∧ runBody (A ++ B) s = runBody A s) := by
  induction A generalizing s with
  | nil => exact Or.inl ⟨s, rfl, rfl⟩
  | cons τ A' ih =>
    cases hτ : τ s with
    | error e =>
      refine Or.inr ⟨?_, ?_⟩
      · rw [show runAllOk (τ :: A') s = (match τ s with
          | .ok u => runAllOk A' u
          | .error _ => none) from rfl, hτ]
      · rw [show runBody ((τ :: A') ++ B) s = (match τ s with
          | .ok u => runBody (A' ++ B) u
          | .error _ => s) from rfl, hτ]
        rw [show runBody (τ :: A') s = (match τ s with
          | .ok u => runBody A' u
          | .error _ => s) from rfl, hτ]
    | ok s' =>
      have hstep : runAllOk (τ :: A') s = runAllOk A' s' := runAllOk_cons τ A' s s' hτ
      have hbody : runBody ((τ :: A') ++ B) s = runBody (A' ++ B) s' := by
        rw [show runBody ((τ :: A') ++ B) s = (match τ s with
          | .ok u => runBody (A' ++ B) u
          | .error _ => s) from rfl, hτ]
      have hbody' : runBody (τ :: A') s = runBody A' s' := by
        rw [show runBody (τ :: A') s = (match τ s with
          | .ok u => runBody A' u
          | .error _ => s) from rfl, hτ]
      rcases ih s' with ⟨u, h1, h2⟩ | ⟨h1, h2⟩
      · exact Or.inl ⟨u, by rw [hstep]; exact h1, by rw [hbody]; exact h2⟩
      · exact Or.inr ⟨by rw [hstep]; exact h1, by rw [hbody, hbody']; exact h2⟩

theorem setPath2_read (s : JVal) (k₁ k₂ : Str) (v s' : JVal)
    (hobj : isObjV (getFieldD s k₁) = true)
    (h : setPath s [k₁, k₂] v = .ok s') :
    getOptPath s' [k₁, k₂] = v := by
  rcases setPath_cons_inv s k₁ k₂ [] v s' h with ⟨fs, t', rfl, hsub, rfl⟩
  obtain ⟨g, hg⟩ := isObjV_exists (getFieldD (JVal.obj fs) k₁) hobj
  rw [hg] at hsub
  rcases setField_inv (JVal.obj g) k₂ v t' hsub with ⟨fs₂, heq, rfl⟩ | ⟨xs, heq, rfl⟩
  · have hfs₂ : g = fs₂ := JVal.obj.inj heq
    subst hfs₂
    show getOptPath (getOptF (JVal.obj (setFields fs k₁ (.obj (setFields g k₂ v)))) k₁) [k₂] = v
    rw [getOptF_obj, lookupF_setFields_self]
    show getOptF (JVal.obj (setFields g k₂ v)) k₂ = v
    rw [getOptF_obj, lookupF_setFields_self]
    rfl
  · exact absurd heq (by simp)

theorem correctionSteps_preserve_diverge (π : List Str)
    (h1 : divergeB π [kTable, kStreet] = true)
    (h2 : divergeB π pPot = true) (h3 : divergeB π pMinRaise = true)
    (h4 : divergeB π pMaxBet = true) (h5 : divergeB π pSb = true)
    (h6 : divergeB π pBb = true) (h7 : divergeB π pHeroStack = true)
    (h8 : divergeB π pHeroCommitted = true) (h9 : divergeB π [kHero, kHole] = true)
    (h10 : divergeB π [kPlayers] = true) :
    ∀ σ ∈ correctionSteps, ∀ t t', σ t = .ok t' →
      getOptPath t' π = getOptPath t π := by
  intro σ hσ
  simp only [correctionSteps, List.mem_cons, List.not_mem_nil, or_false] at hσ
  rcases hσ with rfl | rfl | rfl | rfl | rfl | rfl | rfl | rfl | rfl | rfl
  · exact fun t t' h => stepStreet_preserve t t' π h h1
  · exact fun t t' h => stepCoerce_preserve pPot false t t' π h h2
  · exact fun t t' h => stepCoerce_preserve pMinRaise true t t' π h h3
  · exact fun t t' h => stepCoerce_preserve pMaxBet true t t' π h h4
  · exact fun t t' h => stepCoerce_preserve pSb false t t' π h h5
  · exact fun t t' h => stepCoerce_preserve pBb false t t' π h h6
  · exact fun t t' h => stepCoerce_preserve pHeroStack false t t' π h h7
  · exact fun t t' h => stepCoerce_preserve pHeroCommitted true t t' π h h8
  · exact fun t t' h => stepHole_preserve t t' π h h9
  · exact fun t t' h => stepPlayers_preserve t t' π h h10

theorem preserve_players_first9 :
    ∀ σ ∈ firstNine, ∀ t t', σ t = .ok t' →
      getOptPath t' [kPlayers] = getOptPath t [kPlayers] := by
  intro σ hσ
  simp only [firstNine, List.mem_cons, List.not_mem_nil, or_false] at hσ
  rcases hσ with rfl | rfl | rfl | rfl | rfl | rfl | rfl | rfl | rfl
  · exact fun t t' h => stepStreet_preserve t t' _ h (by decide)
  · exact fun t t' h => stepCoerce_preserve pPot false t t' _ h (by decide)
  · exact fun t t' h => stepCoerce_preserve pMinRaise true t t' _ h (by decide)
  · exact fun t t' h => stepCoerce_preserve pMaxBet true t t' _ h (by decide)
  · exact fun t t' h => stepCoerce_preserve pSb false t t' _ h (by decide)
  · exact fun t t' h => stepCoerce_preserve pBb false t t' _ h (by decide)
  · exact fun t t' h => stepCoerce_preserve pHeroStack false t t' _ h (by decide)
  · exact fun t t' h => stepCoerce_preserve pHeroCommitted true t t' _ h (by decide)
  · exact fun t t' h => stepHole_preserve t t' _ h (by decide)

theorem preserve_street_tail :
    ∀ σ ∈ correctionSteps.tail, ∀ t t', σ t = .ok t' →
      getOptPath t' [kTable, kStreet] = getOptPath t [kTable, kStreet] := by
  intro σ hσ
  simp only [correctionSteps, List.tail_cons, List.mem_cons, List.not_mem_nil,
    or_false] at hσ
  rcases hσ with rfl | rfl | rfl | rfl | rfl | rfl | rfl | rfl | rfl
  · exact fun t t' h => stepCoerce_preserve pPot false t t' _ h (by decide)
  · exact fun t t' h => stepCoerce_preserve pMinRaise true t t' _ h (by decide)
  · exact fun t t' h => stepCoerce_preserve pMaxBet true t t' _ h (by decide)
  · exact fun t t' h => stepCoerce_preserve pSb false t t' _ h (by decide)
  · exact fun t t' h => stepCoerce_preserve pBb false t t' _ h (by decide)
  · exact fun t t' h => stepCoerce_preserve pHeroStack false t t' _ h (by decide)
  · exact fun t t' h => stepCoerce_preserve pHeroCommitted true t t' _ h (by decide)
  · exact fun t t' h => stepHole_preserve t t' _ h (by decide)
  · exact fun t t' h => stepPlayers_preserve t t' _ h (by decide)

theorem playersOfRunAll (s u : JVal) (h : runAllOk correctionSteps s = some u)
    (ps : List JVal) (hps : getOptF s kPlayers = .arr ps) :
    ∃ qs, mapCorrect ps = .ok qs ∧ getOptF u kPlayers = .arr qs := by
  rw [show correctionSteps = firstNine ++ [stepPlayers] from rfl, runAllOk_append] at h
  cases h9 : runAllOk firstNine s with
  | none => rw [h9] at h; exact absurd h (by simp)
  | some s₉ =>
    rw [h9] at h
    have hpres : getOptF s₉ kPlayers = getOptF s kPlayers :=
      runAllOk_preserve firstNine [kPlayers] preserve_players_first9 s s₉ h9
    have h' : runAllOk [stepPlayers] s₉ = some u := h
    cases hsp : stepPlayers s₉ with
    | error e =>
      rw [show runAllOk [stepPlayers] s₉ = (match stepPlayers s₉ with
        | .ok w => runAllOk ([] : List Step) w
        | .error _ => none) from rfl, hsp] at h'
      exact absurd h' (by simp)
    | ok w =>
      rw [runAllOk_cons _ _ _ _ hsp] at h'
      obtain rfl : w = u := Option.some.inj h'
      rcases stepPlayers_ok_inv s₉ _ hsp with ⟨hnotarr, rfl⟩ | ⟨ps', qs', fs, rfl, hm, hmc, rfl⟩
      · rw [hpres, hps] at hnotarr
        exact absurd hnotarr (by simp [isArrV])
      · rw [hps] at hpres
        obtain rfl : ps = ps' := JVal.arr.inj (hpres.symm.trans hm)
        refine ⟨qs', hmc, ?_⟩
        show getOptF (JVal.obj (setFields fs kPlayers (.arr qs'))) kPlayers = .arr qs'
        rw [getOptF_obj, lookupF_setFields_self]
        rfl

theorem playersChanged (s : JVal) :
    getOptF (enforceDeterministicCorrections s) kPlayers = getOptF s kPlayers ∨
    ∃ ps qs, getOptF s kPlayers = .arr ps ∧ mapCorrect ps = .ok qs ∧
      getOptF (enforceDeterministicCorrections s) kPlayers = .arr qs := by
  have hK : enforceDeterministicCorrections s = runBody (firstNine ++ [stepPlayers]) s := rfl
  rcases runBody_append firstNine [stepPlayers] s with ⟨u, h1, h2⟩ | ⟨h1, h2⟩
  · have hpres : getOptF u kPlayers = getOptF s kPlayers :=
      runAllOk_preserve firstNine [kPlayers] preserve_players_first9 s u h1
    cases hsp : stepPlayers u with
    | error e =>
      left
      rw [hK, h2]
      rw [show runBody [stepPlayers] u = (match stepPlayers u with
        | .ok w => runBody ([] : List Step) w
        | .error _ => u) from rfl, hsp]
      exact hpres
    | ok w =>
      have hw : runBody [stepPlayers] u = w := by
        rw [show runBody [stepPlayers] u = (match stepPlayers u with
          | .ok w => runBody ([] : List Step) w
          | .error _ => u) from rfl, hsp]
        rfl
      rcases stepPlayers_ok_inv u w hsp with ⟨hnotarr, rfl⟩ | ⟨ps, qs, fs, rfl, hm, hmc, rfl⟩
      · left
        rw [hK, h2, hw]
        exact hpres
      · right
        refine ⟨ps, qs, ?_, hmc, ?_⟩
        · rw [← hpres]
          exact hm
        · rw [hK, h2, hw]
          show getOptF (JVal.obj (setFields fs kPlayers (.arr qs))) kPlayers = .arr qs
          rw [getOptF_obj, lookupF_setFields_self]
          rfl
  · left
    rw [hK, h2]
    exact runBody_preserve firstNine [kPlayers] preserve_players_first9 s

/-! ## Claim theorems -/

/-- **C1** (code bug).  The claim says a self-check call that yields no
parseable object is silently ignored.  The code does keep the prior state for
a non-ok response and for an ok response with no text, but an ok response
whose collected output text the Loose JSON Extractor cannot parse makes
`parseJsonLoose` throw outside any try/catch, failing the whole request. -/
theorem claim_C1_selfcheck_unparseable_throws :
    selfCheckPass sPrior respUnparseable = .error () ∧
    selfCheckPass sPrior respNotOk = .ok sPrior ∧
    selfCheckPass sPrior respEmptyText = .ok sPrior :=
  ⟨rfl, rfl, rfl⟩

/-- **C7** (confirmed).  The Deterministic Corrector is idempotent: running
`enforceDeterministicCorrections` twice equals running it once, for every
input value. -/
theorem claim_C7_corrector_idempotent (s : JVal) :
    enforceDeterministicCorrections (enforceDeterministicCorrections s) =
      enforceDeterministicCorrections s :=
  runBody_idem correctionSteps s correctionSteps_stable correctionSteps_pairwise

/-- **C8** (confirmed).  The Deterministic Corrector is total: on every input
it returns the state produced by the longest prefix of its fixups that runs
without an exception (the catch ignores the first failing fixup and the
function returns the partially corrected state). -/
theorem claim_C8_corrector_total (s : JVal) :
    ∃ n, runAllOk (correctionSteps.take n) s = some (enforceDeterministicCorrections s) :=
  runBody_prefix correctionSteps s

/-- **C9** (corrected).  The Output Text Collector returns the trimmed
`output_text` when that is a string with nonempty trim, otherwise the trimmed
string `text` parts of `output[*].content[*]` joined by newline, otherwise the
empty string — but only under the amended hypothesis that a truthy
`output_text` is a string; a truthy non-string `output_text` makes it throw
(see the counterexample). -/
theorem claim_C9_collector (o : JVal)
    (h : jsTruthy (getOptF o kOutputText) = true →
      ∃ s, getOptF o kOutputText = JVal.str s) :
    getOutputText o = .ok (specOutputText o) :=
  getOutputText_ok o h

/-- Witness for C9: the claim's three examples, through `claim_C9_collector`. -/
theorem claim_C9_collector_witness :
    getOutputText (.obj [(kOutputText, .str "  hi  ".data)]) = .ok "hi".data ∧
    getOutputText (.obj [(kOutput, .arr [.obj [(kContent, .arr
      [.obj [(kText, .str "a".data)], .obj [(kText, .str "b".data)]])]])])
      = .ok "a\nb".data ∧
    getOutputText (.obj ([] : List (Str × JVal))) = .ok ([] : Str) :=
  ⟨claim_C9_collector _ (fun _ => ⟨"  hi  ".data, rfl⟩),
   claim_C9_collector _ (fun hh => Bool.noConfusion hh),
   claim_C9_collector _ (fun hh => Bool.noConfusion hh)⟩

/-- Counterexample for C9 as claimed: on `{output_text: true}` (a truthy
non-string), `getOutputText` throws instead of returning a string. -/
theorem claim_C9_collector_counterexample :
    getOutputText (.obj [(kOutputText, .bool true)]) = .error () :=
  rfl

/-- **C4** (confirmed).  When the extraction stage parses to a state that
lacks `table`, lacks `hero`, or whose `players` is not an array, the handler
answers 422 "Incomplete extraction" exposing the partial state, and the
strategy call is never made. -/
theorem claim_C4_incomplete_rejected (ex ot st : JVal) (strategy : Except Unit JVal)
    (hex : getField ex kOutputText = .ok ot)
    (hparse : parseJsonLooseV (if jsTruthy ot then ot else .str []) = .ok st)
    (hlack : getOptF st kTable = .undefined ∨ getOptF st kHero = .undefined ∨
      isArrV (getOptF st kPlayers) = false) :
    analyzeHandler true (.ok ex) strategy = (.incomplete st, false) ∧
    statusOf (.incomplete st) = 422 := by
  have hbad : shapeBad st = true := by
    unfold shapeBad
    rcases hlack with h | h | h
    · rw [h]
      rfl
    · rw [h]
      simp
      exact Or.inl (Or.inr rfl)
    · rw [show (match getOptF st kPlayers with
        | JVal.arr _ => true
        | _ => false) = isArrV (getOptF st kPlayers) from rfl, h]
      simp
  refine ⟨?_, rfl⟩
  simp only [analyzeHandler, hex, hparse, hbad, Bool.not_true, Bool.false_eq_true,
    if_false, if_true]

/-- Witness for C4: an extraction whose `output_text` parses to
`{"a":1}`, which lacks all three required fields. -/
theorem claim_C4_incomplete_witness :
    analyzeHandler true (.ok exIncomplete) (.ok .null) = (.incomplete vA, false) ∧
    statusOf (.incomplete vA) = 422 :=
  claim_C4_incomplete_rejected exIncomplete (.str "\x7b\"a\":1\x7d".data) vA (.ok .null)
    rfl rfl (Or.inl rfl)

/-- **C6** (corrected).  On failure the Loose JSON Extractor throws one of
three fixed Errors: `Empty response` exactly on empty/non-string input, else
`Could not parse JSON` or the `JSON.parse` SyntaxError.  None carries the raw
input (see the counterexample: two different inputs, identical error). -/
theorem claim_C6_fixed_diagnostics (s : Str) (e : JsErr)
    (h : parseJsonLoose s = .error e) :
    (s.isEmpty = true → e = .emptyResponse) ∧
    (errMessage e = "Empty response".data ∨ errMessage e = "Could not parse JSON".data ∨
      errMessage e = "Unexpected token".data) := by
  constructor
  · intro hse
    unfold parseJsonLoose at h
    rw [if_pos hse] at h
    exact (Except.error.inj h).symm
  · cases e
    · exact Or.inl rfl
    · exact Or.inr (Or.inl rfl)
    · exact Or.inr (Or.inr rfl)

/-- Witness for C6 at the empty input. -/
theorem claim_C6_fixed_diagnostics_witness :
    (([] : Str).isEmpty = true → JsErr.emptyResponse = .emptyResponse) ∧
    (errMessage .emptyResponse = "Empty response".data ∨
      errMessage .emptyResponse = "Could not parse JSON".data ∨
      errMessage .emptyResponse = "Unexpected token".data) :=
  claim_C6_fixed_diagnostics [] .emptyResponse rfl

/-- Counterexample for C6 as claimed: two different unparseable inputs throw
the very same error value, so the error cannot carry the original raw
string. -/
theorem claim_C6_counterexample :
    parseJsonLoose "alpha beta".data = .error .couldNotParse ∧
    parseJsonLoose "gamma delta".data = .error .couldNotParse ∧
    "alpha beta".data ≠ "gamma delta".data :=
  ⟨rfl, rfl, by decide⟩

/-- **C2** (corrected).  Whenever `table` is an object — so the street
assignment can land — the corrector sets `table.street` from the length of
the board **after filtering out falsy entries** (`filter(Boolean)`), not from
the raw board length as claimed, overriding the prior street regardless of
whether any later fixup throws; and when the filtered length is outside
`\x7b0,3,4,5\x7d` the street is left unchanged on every input. -/
theorem claim_C2_street_from_filtered_board (s : JVal) :
    (∀ st, streetByLen (filteredBoard s).length = some st →
      isObjV (getOptF s kTable) = true →
      getOptPath (enforceDeterministicCorrections s) [kTable, kStreet] = .str st) ∧
    (streetByLen (filteredBoard s).length = none →
      getOptPath (enforceDeterministicCorrections s) [kTable, kStreet] =
        getOptPath s [kTable, kStreet]) := by
  constructor
  · intro st hlen htab
    obtain ⟨fs, rfl⟩ : ∃ fs, s = .obj fs := by
      cases s <;> first
        | exact ⟨_, rfl⟩
        | exact absurd htab Bool.noConfusion
    have htab' : isObjV (getFieldD (JVal.obj fs) kTable) = true := htab
    obtain ⟨g, hg⟩ := isObjV_exists _ htab'
    have htr : jsTruthy (getFieldD (JVal.obj fs) kTable) = true := by
      rw [hg]
      rfl
    have hset : setPath (JVal.obj fs) [kTable, kStreet] (.str st)
        = .ok (.obj (setFields fs kTable (.obj (setFields g kStreet (.str st))))) := by
      rw [show setPath (JVal.obj fs) [kTable, kStreet] (.str st)
          = (match setPath (getFieldD (JVal.obj fs) kTable) [kStreet] (.str st) with
             | .error e => Except.error e
             | .ok t' => setField (JVal.obj fs) kTable t') from rfl, hg]
      rfl
    have hstep : stepStreet (JVal.obj fs)
        = .ok (.obj (setFields fs kTable (.obj (setFields g kStreet (.str st))))) := by
      unfold stepStreet
      rw [hlen]
      show (if jsTruthy (getFieldD (JVal.obj fs) kTable) = true
          then setPath (JVal.obj fs) [kTable, kStreet] (.str st)
          else .ok (JVal.obj fs)) = _
      rw [if_pos htr]
      exact hset
    have hrun : enforceDeterministicCorrections (JVal.obj fs)
        = runBody correctionSteps.tail
            (.obj (setFields fs kTable (.obj (setFields g kStreet (.str st))))) := by
      show runBody correctionSteps (JVal.obj fs) = _
      rw [show runBody correctionSteps (JVal.obj fs) = (match stepStreet (JVal.obj fs) with
        | .ok w => runBody correctionSteps.tail w
        | .error _ => JVal.obj fs) from rfl, hstep]
    rw [hrun, runBody_preserve correctionSteps.tail [kTable, kStreet] preserve_street_tail]
    exact setPath2_read (JVal.obj fs) kTable kStreet _ _ htab' hset
  · intro hnone
    have hstep : stepStreet s = .ok s := by
      unfold stepStreet
      rw [hnone]
    have hrun : enforceDeterministicCorrections s = runBody correctionSteps.tail s := by
      show runBody correctionSteps s = _
      rw [show runBody correctionSteps s = (match stepStreet s with
        | .ok w => runBody correctionSteps.tail w
        | .error _ => s) from rfl, hstep]
    rw [hrun, runBody_preserve correctionSteps.tail [kTable, kStreet] preserve_street_tail]

/-- Witness for C2: a clean three-card board yields street `flop`. -/
theorem claim_C2_street_witness :
    getOptPath (enforceDeterministicCorrections sC2W) [kTable, kStreet]
      = .str "flop".data :=
  (claim_C2_street_from_filtered_board sC2W).1 "flop".data rfl rfl

/-- Counterexample for C2 as claimed: a board of raw length 4 with one falsy
entry gets street `flop` (filtered length 3), not `turn` as the raw-length
mapping would demand. -/
theorem claim_C2_street_counterexample :
    (∃ xs, getOptPath sC2 [kTable, kBoard] = .arr xs ∧ xs.length = 4) ∧
    getOptPath (enforceDeterministicCorrections sC2) [kTable, kStreet]
      = .str "flop".data ∧
    (JVal.str "flop".data) ≠ .str "turn".data :=
  ⟨⟨_, rfl, rfl⟩, rfl, fun hh => absurd (JVal.str.inj hh) (by decide)⟩

/-- **C5** (corrected).  The Loose JSON Extractor recovers a JSON object from
a ```json fence, and from backtick-free prose whose prefix holds no opening
brace and whose suffix holds no closing brace; arbitrary prose can defeat the
first-brace/last-brace recovery (see the counterexample).  Input with no JSON
fails. -/
theorem claim_C5_loose_recovery :
    (∀ j v, j.head? = some '\x7b' → j.getLast? = some '\x7d' →
      jsonParse j = some v →
      parseJsonLoose ("```json\n".data ++ j ++ "\n```".data) = .ok v) ∧
    (∀ p j q v, '`' ∉ p → '`' ∉ j → '`' ∉ q → '\x7b' ∉ p → '\x7d' ∉ q →
      j.head? = some '\x7b' → j.getLast? = some '\x7d' → 2 ≤ j.length →
      jsonParse (trimStr (p ++ j ++ q)) = none → jsonParse j = some v →
      parseJsonLoose (p ++ j ++ q) = .ok v) ∧
    parseJsonLoose "not json at all".data = .error .couldNotParse :=
  ⟨fun j v h1 h2 h3 => parseJsonLoose_fenced j v h1 h2 h3,
   fun p j q v a b c d e f g h2 i k => parseJsonLoose_prose p j q v a b c d e f g h2 i k,
   rfl⟩

/-- Witness for C5: the claim's two concrete recovery examples, through
`claim_C5_loose_recovery`. -/
theorem claim_C5_loose_recovery_witness :
    parseJsonLoose "```json\n\x7b\"a\":1\x7d\n```".data = .ok vA ∧
    parseJsonLoose "noise \x7b\"a\":1\x7d trailing".data = .ok vA :=
  ⟨claim_C5_loose_recovery.1 "\x7b\"a\":1\x7d".data vA rfl rfl rfl,
   claim_C5_loose_recovery.2.1 "noise ".data "\x7b\"a\":1\x7d".data " trailing".data vA
     (by decide) (by decide) (by decide) (by decide) (by decide) rfl rfl (by decide)
     rfl rfl⟩

/-- Counterexample for C5 as claimed: prose containing a stray opening brace
before an embedded JSON object makes the first-brace/last-brace slice
unparseable, so the extractor throws instead of recovering the object. -/
theorem claim_C5_loose_recovery_counterexample :
    parseJsonLoose "see \x7bx notes \x7b\"a\":1\x7d tail".data
      = .error .jsonSyntaxError ∧
    jsonParse "\x7b\"a\":1\x7d".data = some vA :=
  ⟨rfl, rfl⟩

/-- **C10** (confirmed).  The corrector's frame property: a read whose path
diverges from every written path (`table.street`, the seven numeric paths,
`hero.hole`) and from `players` is unchanged, and the `players` rewrite only
renormalizes each entry's `seat`/`stack`/`committedThisStreet` (and
`position`/`inHand`), keeping every other key of object entries. -/
theorem claim_C10_frame (s : JVal) (π : List Str)
    (hπ : ∀ ρ ∈ writeFootprint, divergeB π ρ = true)
    (hπp : divergeB π [kPlayers] = true) :
    getOptPath (enforceDeterministicCorrections s) π = getOptPath s π ∧
    (∀ ps qs, getOptF s kPlayers = .arr ps →
      getOptF (enforceDeterministicCorrections s) kPlayers = .arr qs →
      List.Forall₂ (fun p q => q = p ∨ (playerNumFix p q ∧ playerExtras p q)) ps qs) := by
  constructor
  · exact runBody_preserve correctionSteps π
      (correctionSteps_preserve_diverge π
        (hπ _ (by simp [writeFootprint])) (hπ _ (by simp [writeFootprint]))
        (hπ _ (by simp [writeFootprint])) (hπ _ (by simp [writeFootprint]))
        (hπ _ (by simp [writeFootprint])) (hπ _ (by simp [writeFootprint]))
        (hπ _ (by simp [writeFootprint])) (hπ _ (by simp [writeFootprint]))
        (hπ _ (by simp [writeFootprint])) hπp) s
  · intro ps qs hps hqs
    rcases playersChanged s with heq | ⟨ps', qs', h1, h2, h3⟩
    · rw [hps] at heq
      obtain rfl : ps = qs := JVal.arr.inj (heq.symm.trans hqs)
      refine List.forall₂_same.mpr ?_
      intro x hx
      exact Or.inl rfl
    · obtain rfl : ps = ps' := JVal.arr.inj (hps.symm.trans h1)
      obtain rfl : qs = qs' := JVal.arr.inj (hqs.symm.trans h3)
      exact (mapCorrect_forall₂ _ _ h2).imp
        (fun a b hpq => Or.inr ⟨correctPlayer_numFix _ _ hpq, correctPlayer_extras _ _ hpq⟩)

/-- Witness for C10 at `table.game` on the C3 input. -/
theorem claim_C10_frame_witness :
    getOptPath (enforceDeterministicCorrections sC3) [kTable, "game".data]
      = getOptPath sC3 [kTable, "game".data] ∧
    (∀ ps qs, getOptF sC3 kPlayers = .arr ps →
      getOptF (enforceDeterministicCorrections sC3) kPlayers = .arr qs →
      List.Forall₂ (fun p q => q = p ∨ (playerNumFix p q ∧ playerExtras p q)) ps qs) :=
  claim_C10_frame sC3 [kTable, "game".data] (by decide) (by decide)

/-! ### The seven coerced paths through a fully successful run -/

theorem potThrough (s u : JVal) (hu : runAllOk correctionSteps s = some u) :
    getOptPath u pPot =
      (if jsNonNullish (getOptPath s pPot) then JVal.num (jsToNumber (getOptPath s pPot))
       else getOptPath s pPot) := by
  refine coerceValueThrough
    [stepStreet]
    [stepCoerce pMinRaise true, stepCoerce pMaxBet true, stepCoerce pSb false, stepCoerce pBb false, stepCoerce pHeroStack false, stepCoerce pHeroCommitted true, stepHole, stepPlayers]
    pPot false (by decide) ?_ ?_ s u hu
  · intro σ hσ
    simp only [List.mem_cons, List.not_mem_nil, or_false] at hσ
    rcases hσ with rfl
    · exact fun t t' h => stepStreet_preserve t t' _ h (by decide)
  · intro σ hσ
    simp only [List.mem_cons, List.not_mem_nil, or_false] at hσ
    rcases hσ with rfl | rfl | rfl | rfl | rfl | rfl | rfl | rfl
    · exact fun t t' h => stepCoerce_preserve pMinRaise true t t' _ h (by decide)
    · exact fun t t' h => stepCoerce_preserve pMaxBet true t t' _ h (by decide)
    · exact fun t t' h => stepCoerce_preserve pSb false t t' _ h (by decide)
    · exact fun t t' h => stepCoerce_preserve pBb false t t' _ h (by decide)
    · exact fun t t' h => stepCoerce_preserve pHeroStack false t t' _ h (by decide)
    · exact fun t t' h => stepCoerce_preserve pHeroCommitted true t t' _ h (by decide)
    · exact fun t t' h => stepHole_preserve t t' _ h (by decide)
    · exact fun t t' h => stepPlayers_preserve t t' _ h (by decide)

theorem minRaiseThrough (s u : JVal) (hu : runAllOk correctionSteps s = some u) :
    getOptPath u pMinRaise =
      (if jsNonNullish (getOptPath s pMinRaise) then JVal.num (jsToNumber (getOptPath s pMinRaise))
       else getOptPath s pMinRaise) := by
  refine coerceValueThrough
    [stepStreet, stepCoerce pPot false]
    [stepCoerce pMaxBet true, stepCoerce pSb false, stepCoerce pBb false, stepCoerce pHeroStack false, stepCoerce pHeroCommitted true, stepHole, stepPlayers]
    pMinRaise true (by decide) ?_ ?_ s u hu
  · intro σ hσ
    simp only [List.mem_cons, List.not_mem_nil, or_false] at hσ
    rcases hσ with rfl | rfl
    · exact fun t t' h => stepStreet_preserve t t' _ h (by decide)
    · exact fun t t' h => stepCoerce_preserve pPot false t t' _ h (by decide)
  · intro σ hσ
    simp only [List.mem_cons, List.not_mem_nil, or_false] at hσ
    rcases hσ with rfl | rfl | rfl | rfl | rfl | rfl | rfl
    · exact fun t t' h => stepCoerce_preserve pMaxBet true t t' _ h (by decide)
    · exact fun t t' h => stepCoerce_preserve pSb false t t' _ h (by decide)
    · exact fun t t' h => stepCoerce_preserve pBb false t t' _ h (by decide)
    · exact fun t t' h => stepCoerce_preserve pHeroStack false t t' _ h (by decide)
    · exact fun t t' h => stepCoerce_preserve pHeroCommitted true t t' _ h (by decide)
    · exact fun t t' h => stepHole_preserve t t' _ h (by decide)
    · exact fun t t' h => stepPlayers_preserve t t' _ h (by decide)

theorem maxBetThrough (s u : JVal) (hu : runAllOk correctionSteps s = some u) :
    getOptPath u pMaxBet =
      (if jsNonNullish (getOptPath s pMaxBet) then JVal.num (jsToNumber (getOptPath s pMaxBet))
       else getOptPath s pMaxBet) := by
  refine coerceValueThrough
    [stepStreet, stepCoerce pPot false, stepCoerce pMinRaise true]
    [stepCoerce pSb false, stepCoerce pBb false, stepCoerce pHeroStack false, stepCoerce pHeroCommitted true, stepHole, stepPlayers]
    pMaxBet true (by decide) ?_ ?_ s u hu
  · intro σ hσ
    simp only [List.mem_cons, List.not_mem_nil, or_false] at hσ
    rcases hσ with rfl | rfl | rfl
    · exact fun t t' h => stepStreet_preserve t t' _ h (by decide)
    · exact fun t t' h => stepCoerce_preserve pPot false t t' _ h (by decide)
    · exact fun t t' h => stepCoerce_preserve pMinRaise true t t' _ h (by decide)
  · intro σ hσ
    simp only [List.mem_cons, List.not_mem_nil, or_false] at hσ
    rcases hσ with rfl | rfl | rfl | rfl | rfl | rfl
    · exact fun t t' h => stepCoerce_preserve pSb false t t' _ h (by decide)
    · exact fun t t' h => stepCoerce_preserve pBb false t t' _ h (by decide)
    · exact fun t t' h => stepCoerce_preserve pHeroStack false t t' _ h (by decide)
    · exact fun t t' h => stepCoerce_preserve pHeroCommitted true t t' _ h (by decide)
    · exact fun t t' h => stepHole_preserve t t' _ h (by decide)
    · exact fun t t' h => stepPlayers_preserve t t' _ h (by decide)

theorem sbThrough (s u : JVal) (hu : runAllOk correctionSteps s = some u) :
    getOptPath u pSb =
      (if jsNonNullish (getOptPath s pSb) then JVal.num (jsToNumber (getOptPath s pSb))
       else getOptPath s pSb) := by
  refine coerceValueThrough
    [stepStreet, stepCoerce pPot false, stepCoerce pMinRaise true, stepCoerce pMaxBet true]
    [stepCoerce pBb false, stepCoerce pHeroStack false, stepCoerce pHeroCommitted true, stepHole, stepPlayers]
    pSb false (by decide) ?_ ?_ s u hu
  · intro σ hσ
    simp only [List.mem_cons, List.not_mem_nil, or_false] at hσ
    rcases hσ with rfl | rfl | rfl | rfl
    · exact fun t t' h => stepStreet_preserve t t' _ h (by decide)
    · exact fun t t' h => stepCoerce_preserve pPot false t t' _ h (by decide)
    · exact fun t t' h => stepCoerce_preserve pMinRaise true t t' _ h (by decide)
    · exact fun t t' h => stepCoerce_preserve pMaxBet true t t' _ h (by decide)
  · intro σ hσ
    simp only [List.mem_cons, List.not_mem_nil, or_false] at hσ
    rcases hσ with rfl | rfl | rfl | rfl | rfl
    · exact fun t t' h => stepCoerce_preserve pBb false t t' _ h (by decide)
    · exact fun t t' h => stepCoerce_preserve pHeroStack false t t' _ h (by decide)
    · exact fun t t' h => stepCoerce_preserve pHeroCommitted true t t' _ h (by decide)
    · exact fun t t' h => stepHole_preserve t t' _ h (by decide)
    · exact fun t t' h => stepPlayers_preserve t t' _ h (by decide)

theorem bbThrough (s u : JVal) (hu : runAllOk correctionSteps s = some u) :
    getOptPath u pBb =
      (if jsNonNullish (getOptPath s pBb) then JVal.num (jsToNumber (getOptPath s pBb))
       else getOptPath s pBb) := by
  refine coerceValueThrough
    [stepStreet, stepCoerce pPot false, stepCoerce pMinRaise true, stepCoerce pMaxBet true, stepCoerce pSb false]
    [stepCoerce pHeroStack false, stepCoerce pHeroCommitted true, stepHole, stepPlayers]
    pBb false (by decide) ?_ ?_ s u hu
  · intro σ hσ
    simp only [List.mem_cons, List.not_mem_nil, or_false] at hσ
    rcases hσ with rfl | rfl | rfl | rfl | rfl
    · exact fun t t' h => stepStreet_preserve t t' _ h (by decide)
    · exact fun t t' h => stepCoerce_preserve pPot false t t' _ h (by decide)
    · exact fun t t' h => stepCoerce_preserve pMinRaise true t t' _ h (by decide)
    · exact fun t t' h => stepCoerce_preserve pMaxBet true t t' _ h (by decide)
    · exact fun t t' h => stepCoerce_preserve pSb false t t' _ h (by decide)
  · intro σ hσ
    simp only [List.mem_cons, List.not_mem_nil, or_false] at hσ
    rcases hσ with rfl | rfl | rfl | rfl
    · exact fun t t' h => stepCoerce_preserve pHeroStack false t t' _ h (by decide)
    · exact fun t t' h => stepCoerce_preserve pHeroCommitted true t t' _ h (by decide)
    · exact fun t t' h => stepHole_preserve t t' _ h (by decide)
    · exact fun t t' h => stepPlayers_preserve t t' _ h (by decide)

theorem heroStackThrough (s u : JVal) (hu : runAllOk correctionSteps s = some u) :
    getOptPath u pHeroStack =
      (if jsNonNullish (getOptPath s pHeroStack) then JVal.num (jsToNumber (getOptPath s pHeroStack))
       else getOptPath s pHeroStack) := by
  refine coerceValueThrough
    [stepStreet, stepCoerce pPot false, stepCoerce pMinRaise true, stepCoerce pMaxBet true, stepCoerce pSb false, stepCoerce pBb false]
    [stepCoerce pHeroCommitted true, stepHole, stepPlayers]
    pHeroStack false (by decide) ?_ ?_ s u hu
  · intro σ hσ
    simp only [List.mem_cons, List.not_mem_nil, or_false] at hσ
    rcases hσ with rfl | rfl | rfl | rfl | rfl | rfl
    · exact fun t t' h => stepStreet_preserve t t' _ h (by decide)
    · exact fun t t' h => stepCoerce_preserve pPot false t t' _ h (by decide)
    · exact fun t t' h => stepCoerce_preserve pMinRaise true t t' _ h (by decide)
    · exact fun t t' h => stepCoerce_preserve pMaxBet true t t' _ h (by decide)
    · exact fun t t' h => stepCoerce_preserve pSb false t t' _ h (by decide)
    · exact fun t t' h => stepCoerce_preserve pBb false t t' _ h (by decide)
  · intro σ hσ
    simp only [List.mem_cons, List.not_mem_nil, or_false] at hσ
    rcases hσ with rfl | rfl | rfl
    · exact fun t t' h => stepCoerce_preserve pHeroCommitted true t t' _ h (by decide)
    · exact fun t t' h => stepHole_preserve t t' _ h (by decide)
    · exact fun t t' h => stepPlayers_preserve t t' _ h (by decide)

theorem heroCommittedThrough (s u : JVal) (hu : runAllOk correctionSteps s = some u) :
    getOptPath u pHeroCommitted =
      (if jsNonNullish (getOptPath s pHeroCommitted) then JVal.num (jsToNumber (getOptPath s pHeroCommitted))
       else getOptPath s pHeroCommitted) := by
  refine coerceValueThrough
    [stepStreet, stepCoerce pPot false, stepCoerce pMinRaise true, stepCoerce pMaxBet true, stepCoerce pSb false, stepCoerce pBb false, stepCoerce pHeroStack false]
    [stepHole, stepPlayers]
    pHeroCommitted true (by decide) ?_ ?_ s u hu
  · intro σ hσ
    simp only [List.mem_cons, List.not_mem_nil, or_false] at hσ
    rcases hσ with rfl | rfl | rfl | rfl | rfl | rfl | rfl
    · exact fun t t' h => stepStreet_preserve t t' _ h (by decide)
    · exact fun t t' h => stepCoerce_preserve pPot false t t' _ h (by decide)
    · exact fun t t' h => stepCoerce_preserve pMinRaise true t t' _ h (by decide)
    · exact fun t t' h => stepCoerce_preserve pMaxBet true t t' _ h (by decide)
    · exact fun t t' h => stepCoerce_preserve pSb false t t' _ h (by decide)
    · exact fun t t' h => stepCoerce_preserve pBb false t t' _ h (by decide)
    · exact fun t t' h => stepCoerce_preserve pHeroStack false t t' _ h (by decide)
  · intro σ hσ
    simp only [List.mem_cons, List.not_mem_nil, or_false] at hσ
    rcases hσ with rfl | rfl
    · exact fun t t' h => stepHole_preserve t t' _ h (by decide)
    · exact fun t t' h => stepPlayers_preserve t t' _ h (by decide)

/-- **C3** (corrected).  Under the shape hypotheses that make every fixup
succeed (the state and its `hero` are objects, `table` is an object or falsy,
and no `players` entry is nullish), each coerced numeric path ends as
`Number(old)` when its old value was non-nullish — so the string `"12.5"`
becomes the number `12.5` — and is left unchanged (hence `null` stays
`null`) otherwise; and every player's `seat`/`stack`/`committedThisStreet`
is renormalized the same way.  Without those hypotheses a single bad entry
aborts the remaining coercions — see the counterexample, where a `null`
player leaves a later player's string-typed stack untouched. -/
theorem claim_C3_numeric_coercion (v s : JVal) (ps : List JVal)
    (hInv : InvC3 v s) (hv : v = .arr ps)
    (hps : ∀ p ∈ ps, jsNonNullish p = true) :
    (∀ ρ ∈ numPaths,
      getOptPath (enforceDeterministicCorrections s) ρ =
        (if jsNonNullish (getOptPath s ρ)
         then JVal.num (jsToNumber (getOptPath s ρ))
         else getOptPath s ρ)) ∧
    (∃ qs, getOptF (enforceDeterministicCorrections s) kPlayers = .arr qs ∧
      List.Forall₂ playerNumFix ps qs) := by
  obtain ⟨u, hu⟩ := invRunAll v s hInv (fun ps' hv' => by
    rw [hv] at hv'
    obtain rfl : ps = ps' := JVal.arr.inj hv'
    exact hps)
  have hEnf : enforceDeterministicCorrections s = u := runBody_eq_of_runAllOk _ _ _ hu
  constructor
  · intro ρ hρ
    simp only [numPaths, List.mem_cons, List.not_mem_nil, or_false] at hρ
    rcases hρ with rfl | rfl | rfl | rfl | rfl | rfl | rfl
    · rw [hEnf]
      exact potThrough s u hu
    · rw [hEnf]
      exact minRaiseThrough s u hu
    · rw [hEnf]
      exact maxBetThrough s u hu
    · rw [hEnf]
      exact sbThrough s u hu
    · rw [hEnf]
      exact bbThrough s u hu
    · rw [hEnf]
      exact heroStackThrough s u hu
    · rw [hEnf]
      exact heroCommittedThrough s u hu
  · have hplayers : getOptF s kPlayers = .arr ps := by
      rw [hInv.2.2.2, hv]
    obtain ⟨qs, hmc, hq⟩ := playersOfRunAll s u hu ps hplayers
    refine ⟨qs, ?_, ?_⟩
    · rw [hEnf]
      exact hq
    · exact (mapCorrect_forall₂ _ _ hmc).imp
        (fun a b hpq => correctPlayer_numFix _ _ hpq)

/-- Witness for C3 on a well-shaped state whose numeric fields are numeric
strings. -/
theorem claim_C3_numeric_coercion_witness :
    (∀ ρ ∈ numPaths,
      getOptPath (enforceDeterministicCorrections sC3W) ρ =
        (if jsNonNullish (getOptPath sC3W ρ)
         then JVal.num (jsToNumber (getOptPath sC3W ρ))
         else getOptPath sC3W ρ)) ∧
    (∃ qs, getOptF (enforceDeterministicCorrections sC3W) kPlayers = .arr qs ∧
      List.Forall₂ playerNumFix [JVal.obj [(kStack, .str "5".data)]] qs) :=
  claim_C3_numeric_coercion (.arr [JVal.obj [(kStack, .str "5".data)]]) sC3W
    [JVal.obj [(kStack, .str "5".data)]] ⟨rfl, rfl, Or.inl rfl, rfl⟩ rfl (by decide)

/-- Counterexample for C3 as claimed: a `null` players entry makes the
`players` map throw, so a later player keeps its string-typed `stack`. -/
theorem claim_C3_numeric_coercion_counterexample :
    getOptF (enforceDeterministicCorrections sC3) kPlayers =
      .arr [.null, .obj [(kStack, .str "5".data)]] ∧
    isStrV (getFieldD (.obj [(kStack, .str "5".data)]) kStack) = true :=
  ⟨rfl, rfl⟩

end PokerVision
